import Mathlib

/-!
Shallow embedding of `src/clos_mult_router.c`: a three-stage Clos fabric
simulator with a global backtracking repacker.  The C program's mutable
global state is threaded explicitly; machine `int` values are modelled as
`Nat` (owners, ports, spines) or `Int` (values with the `-1` sentinel).
Memory-allocation failure paths of the C code are not modelled (memory is
unbounded here); the wall-clock used for progress reporting is modelled as
an explicit `clock` oracle mapping the attempt counter to a time, so that
its (non-)influence on the search can be stated and proved.
-/

namespace Clos

/-- Pointwise update of a one-dimensional map (models `arr[a] = v`). -/
def set1 {α : Type} (f : Nat → α) (a : Nat) (v : α) : Nat → α :=
  fun x => if x = a then v else f x

/-- Pointwise update of a two-dimensional map (models `m[a][b] = v`). -/
def set2 {α : Type} (f : Nat → Nat → α) (a b : Nat) (v : α) : Nat → Nat → α :=
  fun x y => if x = a ∧ y = b then v else f x y

/-- Swap of two indices of a map (models the in-place array swap). -/
def swapF {α : Type} (f : Nat → α) (i j : Nat) : Nat → α :=
  fun k => if k = i then f j else if k = j then f i else f k

/-- Block of a 1-based port: `(port - 1) / N` (`get_block` in the source). -/
def get_block (n p : Nat) : Nat := (p - 1) / n

/-- Port/input-identity range check (`is_valid_port`): `1 ≤ p ≤ N²`. -/
def valid_port (n p : Nat) : Bool := decide (1 ≤ p) && decide (p ≤ n * n)

/-- The source idiom `!(owner != 0 && owner != id)`: a trunk cell is usable
by input `i` iff it is free or already owned by `i`. -/
def trunkFree (owner i : Nat) : Bool := owner == 0 || owner == i

/-- One `(input_id, ingress_block, egress_block)` demand (struct `Demand`). -/
structure Demand where
  input_id : Nat
  ingress_block : Nat
  egress_block : Nat
deriving DecidableEq, Repr

/-- Entry of the `lock_conflicts` diagnostic list (struct `LockConflict`).
Fields are `Int` because RANGE conflicts record raw out-of-range values. -/
structure LockConflict where
  input_id : Int
  egress_block : Int
  spine : Int
  reason : String
deriving DecidableEq, Repr

/-- Immutable inputs of the engine: size, previous-state spine vector,
flags, and the lock table (all loaded once at startup). -/
structure Env where
  n : Nat
  prev_s3_port_spine : Nat → Int
  have_previous_state : Bool
  strict_stability : Bool
  have_locks : Bool
  lock_spine_for : Nat → Nat → Int

/-- Progress-reporting state of `backtrack` (the C `static` locals
`solve_attempts` / `last_report`, plus the emitted report lines). -/
structure Prog where
  attempts : Nat
  lastReport : Int
  log : List (Nat × Nat × Nat)
deriving Repr

/-- Mutable system state: declared state, committed fabric matrices, the
persistent lock-conflict list, the per-solve stability cost, and the
progress-reporting state. -/
structure St where
  desired_owner : Nat → Nat
  s1_to_s2 : Nat → Nat → Nat
  s2_to_s3 : Nat → Nat → Nat
  s3_port_owner : Nat → Nat
  s3_port_spine : Nat → Int
  conflicts : List LockConflict
  last_stability_cost : Nat
  prog : Prog

/-- Result of `load_locks`: lock table, `have_locks`, recorded conflicts. -/
structure LockState where
  lock_spine_for : Nat → Nat → Int
  have_locks : Bool
  conflicts : List LockConflict

/-- Loading of the lock table from its parsed `(input, egressBlock, spine)`
records (`load_locks`; the JSON text scanning itself is external to the
core per the spec and is not modelled).  Out-of-range records add a RANGE
conflict; a second lock on the same `(input, egress)` with a different
spine adds a CONFLICT; neither aborts loading. -/
def load_locks (n : Nat) (entries : List (Int × Int × Int)) : LockState :=
  entries.foldl
    (fun ls ent =>
      if ¬ ((1 : Int) ≤ ent.1 ∧ ent.1 ≤ ((n * n : Nat) : Int) ∧ 0 ≤ ent.2.1 ∧
            ent.2.1 < (n : Int) ∧ 0 ≤ ent.2.2 ∧ ent.2.2 < (n : Int)) then
        { ls with conflicts := ls.conflicts ++ [⟨ent.1, ent.2.1, ent.2.2, "RANGE"⟩] }
      else
        let existing := ls.lock_spine_for ent.1.toNat ent.2.1.toNat
        if existing ≥ 0 ∧ existing ≠ ent.2.2 then
          { ls with conflicts := ls.conflicts ++ [⟨ent.1, ent.2.1, ent.2.2, "CONFLICT"⟩] }
        else
          { ls with lock_spine_for := set2 ls.lock_spine_for ent.1.toNat ent.2.1.toNat ent.2.2,
                    have_locks := true })
    ⟨fun _ _ => -1, false, []⟩

/-- Bit `(i, e)` of the per-input egress bitmask `need_blocks_mask`:
some output port of egress block `e` is declared owned by input `i`
(row 0 is never set in the source since `in_id == 0` ports are skipped). -/
def needMask (n : Nat) (desired : Nat → Nat) (i e : Nat) : Bool :=
  decide (i ≠ 0) &&
    (List.range (n * n)).any fun q => desired (q + 1) == i && get_block n (q + 1) == e

/-- An input is active iff some bit of its egress bitmask is set. -/
def inputActive (n : Nat) (desired : Nat → Nat) (i : Nat) : Bool :=
  (List.range n).any fun e => needMask n desired i e

/-- Ascending list of active inputs (the `active_inputs` array). -/
def active_inputs (n : Nat) (desired : Nat → Nat) : List Nat :=
  (List.range (n * n)).filterMap fun q =>
    if inputActive n desired (q + 1) then some (q + 1) else none

/-- Demand emission for one input over the egress blocks, with the
`d >= max_demands` overflow check of `build_demands` (overflow gives
`none`, modelling the `-1` return). -/
def buildDemandsEmit (n : Nat) (desired : Nat → Nat) (maxD i ingress : Nat) :
    List Nat → List Demand → Option (List Demand)
  | [], acc => some acc
  | e :: rest, acc =>
    if needMask n desired i e then
      if acc.length ≥ maxD then none
      else buildDemandsEmit n desired maxD i ingress rest (acc ++ [⟨i, ingress, e⟩])
    else buildDemandsEmit n desired maxD i ingress rest acc

/-- Outer loop of `build_demands` over the active inputs. -/
def buildDemandsGo (n : Nat) (desired : Nat → Nat) (maxD : Nat) :
    List Nat → List Demand → Option (List Demand)
  | [], acc => some acc
  | i :: rest, acc =>
    match buildDemandsEmit n desired maxD i (get_block n i) (List.range n) acc with
    | none => none
    | some acc' => buildDemandsGo n desired maxD rest acc'

/-- Derivation of the demand list from declared state (`build_demands`);
`none` models the `-1` internal-overflow return. -/
def build_demands (n : Nat) (desired : Nat → Nat) : Option (List Demand) :=
  buildDemandsGo n desired (n * n * n) (active_inputs n desired) []

/-- Number of distinct inputs needing egress block `e`. -/
def egressLoad (n : Nat) (desired : Nat → Nat) (e : Nat) : Nat :=
  ((List.range (n * n)).filter fun q => needMask n desired (q + 1) e).length

/-- Number of distinct active inputs in ingress block `b`. -/
def ingressLoad (n : Nat) (desired : Nat → Nat) (b : Nat) : Nat :=
  ((List.range (n * n)).filter fun q =>
    inputActive n desired (q + 1) && (get_block n (q + 1) == b)).length

/-- Pre-search capacity check (`quick_capacity_check`): every egress block
needs at most `N` distinct inputs and every ingress block holds at most
`N` distinct active inputs. -/
def quick_capacity_check (n : Nat) (desired : Nat → Nat) : Bool :=
  ((List.range n).all fun e => decide (egressLoad n desired e ≤ n)) &&
  ((List.range n).all fun b => decide (ingressLoad n desired b ≤ n))

/-- Accumulator of `validate_locks_against_demands`: the temporary
`locked_s2` / `locked_s1` matrices, the conflict list and the `ok` flag. -/
structure LockCheck where
  locked_s2 : Nat → Nat → Nat
  locked_s1 : Nat → Nat → Nat
  conflicts : List LockConflict
  ok : Bool

/-- Scan order of the lock table: inputs `1..N²` outer, egress `0..N-1`
inner, exactly as the C double loop. -/
def lockPairs (n : Nat) : List (Nat × Nat) :=
  (List.range (n * n)).flatMap fun q => (List.range n).map fun e => (q + 1, e)

/-- One step of the lock-vs-demands validation for the pair `(i, e)`. -/
def lockCheckStep (env : Env) (desired : Nat → Nat) (st : LockCheck)
    (pr : Nat × Nat) : LockCheck :=
  let s := env.lock_spine_for pr.1 pr.2
  if s < 0 then st
  else if ¬ needMask env.n desired pr.1 pr.2 then st
  else
    let sn := s.toNat
    let ingress := get_block env.n pr.1
    let st1 :=
      if st.locked_s2 sn pr.2 ≠ 0 ∧ st.locked_s2 sn pr.2 ≠ pr.1 then
        { st with conflicts := st.conflicts ++ [⟨(pr.1 : Int), (pr.2 : Int), s, "CONFLICT"⟩],
                  ok := false }
      else { st with locked_s2 := set2 st.locked_s2 sn pr.2 pr.1 }
    if st1.locked_s1 ingress sn ≠ 0 ∧ st1.locked_s1 ingress sn ≠ pr.1 then
      { st1 with conflicts := st1.conflicts ++ [⟨(pr.1 : Int), (pr.2 : Int), s, "CONFLICT"⟩],
                 ok := false }
    else { st1 with locked_s1 := set2 st1.locked_s1 ingress sn pr.1 }

/-- Validation of locks against the current demand set
(`validate_locks_against_demands`).  Returns the updated persistent
conflict list and the success flag `ok && lock_conflict_count == 0`. -/
def validate_locks_against_demands (env : Env) (desired : Nat → Nat)
    (conflicts0 : List LockConflict) : List LockConflict × Bool :=
  if ¬ env.have_locks then (conflicts0, conflicts0.isEmpty)
  else
    let fin := (lockPairs env.n).foldl (lockCheckStep env desired)
      ⟨fun _ _ => 0, fun _ _ => 0, conflicts0, true⟩
    (fin.conflicts, fin.ok && fin.conflicts.isEmpty)

/-- Previous spine for a `(input, egress_block)` aggregate, rebuilt per
solve from `prev_s3_port_spine` and the current declared state (later
ports overwrite earlier ones, as in the C loop). -/
def prev_spine_for (env : Env) (desired : Nat → Nat) (i e : Nat) : Int :=
  if env.have_previous_state then
    (List.range (env.n * env.n)).foldl
      (fun acc q =>
        let p := q + 1
        if desired p = i ∧ i ≠ 0 ∧ env.prev_s3_port_spine p ≥ 0 ∧ get_block env.n p = e
        then env.prev_s3_port_spine p else acc)
      (-1)
  else -1

/-- Solver context (`SolverCtx`): demand array (as a map plus length),
temporary trunk matrices, per-input used-spine sets, assignment vectors
and the stability costs.  `completions` is a ghost log, never consulted by
the algorithm, recording every complete assignment the search reaches
(pairing and cost at that moment); it exists so that properties about
"solutions reached by the search" can be stated. -/
structure SCtx where
  demands : Nat → Demand
  num_demands : Nat
  tmp_s2 : Nat → Nat → Nat
  tmp_s1_owner : Nat → Nat → Nat
  used_spines : Nat → Nat → Bool
  assignment : Nat → Nat
  best_assignment : Nat → Nat
  stability_cost : Nat
  best_stability_cost : Nat
  completions : List (List (Demand × Nat) × Nat)

/-- Domain size of a demand under the current partial assignment
(`domain_size`): a locked demand has domain 0 or 1; otherwise the count
of spines whose two trunks are free or already owned by the input. -/
def domain_size (env : Env) (s : SCtx) (d : Demand) : Nat :=
  if env.have_locks ∧ env.lock_spine_for d.input_id d.egress_block ≥ 0 then
    let locked := (env.lock_spine_for d.input_id d.egress_block).toNat
    if ¬ trunkFree (s.tmp_s2 locked d.egress_block) d.input_id then 0
    else if ¬ trunkFree (s.tmp_s1_owner d.ingress_block locked) d.input_id then 0
    else 1
  else
    ((List.range env.n).filter fun sp =>
      trunkFree (s.tmp_s2 sp d.egress_block) d.input_id &&
      trunkFree (s.tmp_s1_owner d.ingress_block sp) d.input_id).length

/-- MRV scan (`for i = depth..`): fail (`none`) on an empty domain, break
on a domain of 1, otherwise keep the first index of the smallest domain.
The inner `Option Nat` is the running `best_idx` (`-1` at start). -/
def mrvScan (dsz : Nat → Nat) : List Nat → Option Nat → Nat → Option (Option Nat)
  | [], besti, _ => some besti
  | i :: rest, besti, bestd =>
    let dom := dsz i
    if dom = 0 then none
    else if dom < bestd then
      if dom = 1 then some (some i) else mrvScan dsz rest (some i) dom
    else mrvScan dsz rest besti bestd

/-- The pass-0 predicate `is_prev`: the candidate equals a defined
previous spine. -/
def isPrevSpine (prevSp : Int) (sp : Nat) : Bool :=
  decide (prevSp ≥ 0) && ((sp : Int) == prevSp)

/-- Candidate order of the three-pass value loop.  The C code iterates
`pass = 0,1,2` over `s = 0..N-1` with skip conditions on `is_prev` and the
used-spine bit; since every trial restores the trunk matrices, the
used-spine word and the cost before the next iteration, the skip
predicates are constant across the loop, and the traversal is exactly
this flattened list. -/
def candList (n : Nat) (prevSp : Int) (usedRow : Nat → Bool) : List Nat :=
  ((List.range n).filter fun sp => isPrevSpine prevSp sp) ++
  ((List.range n).filter fun sp => !isPrevSpine prevSp sp && usedRow sp) ++
  ((List.range n).filter fun sp => !isPrevSpine prevSp sp && !usedRow sp)

/-- Progress reporting at the top of `backtrack`: the attempt counter is
incremented, and a report line is emitted when the clock advanced at least
5000ms past the last report or no report was emitted yet. -/
def progressStep (clock : Nat → Int) (p : Prog) (depth num best : Nat) : Prog :=
  let att := p.attempts + 1
  let now := clock att
  if now - p.lastReport ≥ 5000 ∨ p.lastReport = 0 then
    ⟨att, now, (depth, num, best) :: p.log⟩
  else ⟨att, p.lastReport, p.log⟩

/-- One trial of the value loop body: constraint check, provisional commit
(with undo data), recursion through `recur`, then exact undo — or the
early return when a perfect-stability solution was found below. -/
def tryCands (recur : SCtx → Prog → SCtx × Prog × Bool) (prevSp : Int)
    (d : Demand) (depth : Nat) :
    List Nat → SCtx → Prog → SCtx × Prog × Bool
  | [], s, p => (s, p, false)
  | c :: rest, s, p =>
    if ¬ trunkFree (s.tmp_s2 c d.egress_block) d.input_id then
      tryCands recur prevSp d depth rest s p
    else if ¬ trunkFree (s.tmp_s1_owner d.ingress_block c) d.input_id then
      tryCands recur prevSp d depth rest s p
    else
      let prev_s2 := s.tmp_s2 c d.egress_block
      let prev_s1 := s.tmp_s1_owner d.ingress_block c
      let already_used := s.used_spines d.input_id c
      let prev_cost := s.stability_cost
      let sC : SCtx := { s with
        tmp_s2 := set2 s.tmp_s2 c d.egress_block d.input_id,
        tmp_s1_owner := set2 s.tmp_s1_owner d.ingress_block c d.input_id,
        assignment := set1 s.assignment depth c,
        used_spines := set2 s.used_spines d.input_id c true,
        stability_cost := s.stability_cost +
          (if prevSp ≥ 0 ∧ (c : Int) ≠ prevSp then 1 else 0) }
      match recur sC p with
      | (sR, pR, found) =>
        if found ∧ sR.best_stability_cost = 0 then (sR, pR, true)
        else
          let sU : SCtx := { sR with
            tmp_s2 := set2 sR.tmp_s2 c d.egress_block prev_s2,
            tmp_s1_owner := set2 sR.tmp_s1_owner d.ingress_block c prev_s1,
            used_spines := set2 sR.used_spines d.input_id c already_used,
            stability_cost := prev_cost }
          tryCands recur prevSp d depth rest sU pR

/-- Handling of `depth == num_demands` in `backtrack`: log the reached
completion (ghost), record it as best iff strictly better, and return
`true` exactly when the best cost is now 0. -/
def completeStep (s : SCtx) (p : Prog) : SCtx × Prog × Bool :=
  let pairs := (List.range s.num_demands).map fun k => (s.demands k, s.assignment k)
  let s1 : SCtx := { s with completions := (pairs, s.stability_cost) :: s.completions }
  let s2 : SCtx :=
    if s1.stability_cost < s1.best_stability_cost then
      { s1 with best_stability_cost := s1.stability_cost,
                best_assignment := fun k =>
                  if k < s1.num_demands then s1.assignment k else s1.best_assignment k }
    else s1
  if s2.best_stability_cost = 0 then (s2, p, true) else (s2, p, false)

/-- The backtracking search (`backtrack`).  `fuel` is the structural bound
on the remaining recursion depth; the entry caller passes
`fuel = num_demands` and every recursive call is at `depth + 1` with
`fuel - 1`, so the `fuel = 0` fallback is unreachable for `depth <
num_demands`.  The `some none` MRV outcome (no index beat the initial
best-domain sentinel `999`) can occur only when every domain is ≥ 999,
which requires `N ≥ 999`; the C code indexes `demands[-1]` there
(undefined behaviour), modelled as a plain failure return. -/
def backtrack (clock : Nat → Int) (env : Env) (prevFor : Nat → Nat → Int) :
    Nat → SCtx → Prog → Nat → SCtx × Prog × Bool
  | 0, s, p, depth =>
    let p1 := progressStep clock p depth s.num_demands s.best_stability_cost
    if s.stability_cost ≥ s.best_stability_cost then (s, p1, false)
    else if depth = s.num_demands then completeStep s p1
    else (s, p1, false)
  | fuel + 1, s, p, depth =>
    let p1 := progressStep clock p depth s.num_demands s.best_stability_cost
    if s.stability_cost ≥ s.best_stability_cost then (s, p1, false)
    else if depth = s.num_demands then completeStep s p1
    else
      match mrvScan (fun k => domain_size env s (s.demands k))
          (List.range' depth (s.num_demands - depth)) none 999 with
      | none => (s, p1, false)
      | some none => (s, p1, false)
      | some (some besti) =>
        let sA : SCtx :=
          if besti ≠ depth then
            { s with demands := swapF s.demands depth besti,
                     assignment := swapF s.assignment depth besti }
          else s
        let d := sA.demands depth
        let lockedSpine : Int :=
          if env.have_locks then env.lock_spine_for d.input_id d.egress_block else -1
        let prevSp := prevFor d.input_id d.egress_block
        if lockedSpine ≥ 0 then
          let c := lockedSpine.toNat
          if ¬ trunkFree (sA.tmp_s2 c d.egress_block) d.input_id then (sA, p1, false)
          else if ¬ trunkFree (sA.tmp_s1_owner d.ingress_block c) d.input_id then
            (sA, p1, false)
          else
            let prev_s2 := sA.tmp_s2 c d.egress_block
            let prev_s1 := sA.tmp_s1_owner d.ingress_block c
            let already_used := sA.used_spines d.input_id c
            let prev_cost := sA.stability_cost
            let sC : SCtx := { sA with
              tmp_s2 := set2 sA.tmp_s2 c d.egress_block d.input_id,
              tmp_s1_owner := set2 sA.tmp_s1_owner d.ingress_block c d.input_id,
              assignment := set1 sA.assignment depth c,
              used_spines := set2 sA.used_spines d.input_id c true,
              stability_cost := sA.stability_cost +
                (if prevSp ≥ 0 ∧ (c : Int) ≠ prevSp then 1 else 0) }
            match backtrack clock env prevFor fuel sC p1 (depth + 1) with
            | (sR, pR, found) =>
              if found ∧ sR.best_stability_cost = 0 then (sR, pR, true)
              else
                let sU : SCtx := { sR with
                  tmp_s2 := set2 sR.tmp_s2 c d.egress_block prev_s2,
                  tmp_s1_owner := set2 sR.tmp_s1_owner d.ingress_block c prev_s1,
                  used_spines := set2 sR.used_spines d.input_id c already_used,
                  stability_cost := prev_cost }
                (sU, pR, false)
        else
          tryCands (fun sc pc => backtrack clock env prevFor fuel sc pc (depth + 1))
            prevSp d depth
            (candList env.n prevSp (fun sp => sA.used_spines d.input_id sp)) sA p1

/-- Candidate solution buffers (struct `FabricSolution`).  The C code
leaves `s3_spine[0]` uninitialised (`malloc` with the fill loop starting
at port 1); it is modelled as the `-1` initial value, which the program
never reads back. -/
structure FabricSolution where
  s1 : Nat → Nat → Nat
  s2 : Nat → Nat → Nat
  s3_owner : Nat → Nat
  s3_spine : Nat → Int

/-- Trunk application accumulator of the rebuild phase: the solution `s2`
and `s1` matrices plus the `spine_for[input][egress]` lookup map. -/
structure RebuildAcc where
  s2 : Nat → Nat → Nat
  s1 : Nat → Nat → Nat
  spine_for : Nat → Nat → Int

/-- Application of each final demand/assignment pair to the trunk matrices
(the first rebuild loop of `solve_and_build_solution`).  Note that the
demand map is the one left behind by the search (after its MRV swaps) and
the assignment is `best_assignment`. -/
def applyDemands (s : SCtx) : RebuildAcc :=
  (List.range s.num_demands).foldl
    (fun acc k =>
      let d := s.demands k
      let sp := s.best_assignment k
      { s2 := set2 acc.s2 sp d.egress_block d.input_id,
        s1 := set2 acc.s1 d.ingress_block sp d.input_id,
        spine_for := set2 acc.spine_for d.input_id d.egress_block (sp : Int) })
    ⟨fun _ _ => 0, fun _ _ => 0, fun _ _ => -1⟩

/-- Stage-3 selection loop: each desired port picks the spine assigned to
its `(input, egress_block)`; a missing assignment is the "Internal error:
missing spine assignment" failure, modelled as `none`. -/
def buildStage3 (n : Nat) (desired : Nat → Nat) (acc : RebuildAcc) :
    List Nat → FabricSolution → Option FabricSolution
  | [], sol => some sol
  | q :: rest, sol =>
    let p := q + 1
    let i := desired p
    if i = 0 then
      buildStage3 n desired acc rest
        { sol with s3_owner := set1 sol.s3_owner p 0, s3_spine := set1 sol.s3_spine p (-1) }
    else
      let sp := acc.spine_for i (get_block n p)
      if sp < 0 then none
      else
        buildStage3 n desired acc rest
          { sol with s3_owner := set1 sol.s3_owner p i, s3_spine := set1 sol.s3_spine p sp }

/-- The all-zero solution of the `num_demands == 0` trivial branch. -/
def trivialSolution : FabricSolution :=
  ⟨fun _ _ => 0, fun _ _ => 0, fun _ => 0, fun _ => -1⟩

/-- Initial solver context for a demand list. -/
def initialSCtx (dl : List Demand) : SCtx :=
  { demands := fun k => dl.getD k ⟨0, 0, 0⟩,
    num_demands := dl.length,
    tmp_s2 := fun _ _ => 0,
    tmp_s1_owner := fun _ _ => 0,
    used_spines := fun _ _ => false,
    assignment := fun _ => 0,
    best_assignment := fun _ => 0,
    stability_cost := 0,
    best_stability_cost := 999999,
    completions := [] }

/-- The complete solve pipeline (`solve_and_build_solution`): demand
build, lock validation, trivial branch, capacity check, backtracking
search, strict-stability gate, and the clean rebuild of the solution from
the final demand order and `best_assignment`.  Returns the updated system
state (conflict list, `last_stability_cost`, progress state) and the
solution on success. -/
def solve_and_build_solution (clock : Nat → Int) (env : Env) (st : St) :
    St × Option FabricSolution :=
  match build_demands env.n st.desired_owner with
  | none => (st, none)
  | some dl =>
    match validate_locks_against_demands env st.desired_owner st.conflicts with
    | (conflicts', lockOk) =>
      let st1 := { st with conflicts := conflicts' }
      if ¬ lockOk then (st1, none)
      else if dl.length = 0 then
        ({ st1 with last_stability_cost := 0 }, some trivialSolution)
      else if ¬ quick_capacity_check env.n st.desired_owner then (st1, none)
      else
        match backtrack clock env (prev_spine_for env st.desired_owner)
            dl.length (initialSCtx dl) st1.prog 0 with
        | (sf, pf, _) =>
          let st2 := { st1 with prog := pf }
          if sf.best_stability_cost = 999999 then (st2, none)
          else
            let st3 := { st2 with last_stability_cost := sf.best_stability_cost }
            if env.strict_stability ∧ sf.best_stability_cost > 0 then (st3, none)
            else
              match buildStage3 env.n st.desired_owner (applyDemands sf)
                  (List.range (env.n * env.n))
                  { s1 := (applyDemands sf).s1, s2 := (applyDemands sf).s2,
                    s3_owner := fun _ => 0, s3_spine := fun _ => -1 } with
              | none => (st3, none)
              | some sol => (st3, some sol)

/-- Wholesale overwrite of the committed fabric by a solution
(`commit_solution`). -/
def commit_solution (st : St) (sol : FabricSolution) : St :=
  { st with s1_to_s2 := sol.s1, s2_to_s3 := sol.s2,
            s3_port_owner := sol.s3_owner, s3_port_spine := sol.s3_spine }

/-- Post-commit invariant checker (`validate_fabric`): populated spine →
egress trunks imply matching ingress → spine ownership; every owned port
agrees with its trunk (and a free port has spine `-1`); the fabric
realises `desired_owner` exactly. -/
def validate_fabric (env : Env) (st : St) : Bool :=
  ((List.range env.n).all fun sp => (List.range env.n).all fun e =>
    let i := st.s2_to_s3 sp e
    i == 0 || (valid_port env.n i && (st.s1_to_s2 (get_block env.n i) sp == i))) &&
  ((List.range (env.n * env.n)).all fun q =>
    let p := q + 1
    let owner := st.s3_port_owner p
    let spine := st.s3_port_spine p
    if owner = 0 then spine == -1
    else
      valid_port env.n owner && decide (0 ≤ spine) && decide (spine < (env.n : Int)) &&
        (st.s2_to_s3 spine.toNat (get_block env.n p) == owner)) &&
  ((List.range (env.n * env.n)).all fun q =>
    st.desired_owner (q + 1) == st.s3_port_owner (q + 1))

/-- Solve, commit, validate (`repack_fabric_and_commit`).  A solve failure
leaves the fabric untouched; a validation failure after the commit keeps
the committed state and reports failure (the cumulative statistics the C
function also updates are not modelled). -/
def repack_fabric_and_commit (clock : Nat → Int) (env : Env) (st : St) : St × Bool :=
  match solve_and_build_solution clock env st with
  | (st', none) => (st', false)
  | (st', some sol) =>
    let st'' := commit_solution st' sol
    if validate_fabric env st'' then (st'', true) else (st'', false)

/-- Staging loop of a Route request: validate every target and record a
`(port, previous_owner)` edit for each port whose value would change;
`none` models the early `FAIL` returns (target out of range, or owned by
a different input). -/
def stageRouteEdits (n : Nat) (desired : Nat → Nat) (input : Nat) :
    List Nat → List (Nat × Nat) → Option (List (Nat × Nat))
  | [], acc => some acc
  | p :: rest, acc =>
    if ¬ valid_port n p then none
    else
      let prev := desired p
      if prev ≠ 0 ∧ prev ≠ input then none
      else if prev ≠ input then stageRouteEdits n desired input rest (acc ++ [(p, prev)])
      else stageRouteEdits n desired input rest acc

/-- Transactional Route (`apply_route_request`): validate and stage,
apply the staged edits, repack; on failure restore the edited ports and
re-solve the pre-edit state (the result of that secondary repack is
discarded). -/
def apply_route_request (clock : Nat → Int) (env : Env) (st : St)
    (input : Nat) (targets : List Nat) : St × Bool :=
  if ¬ valid_port env.n input then (st, false)
  else if targets.length = 0 then (st, false)
  else
    match stageRouteEdits env.n st.desired_owner input targets [] with
    | none => (st, false)
    | some edits =>
      let desA := edits.foldl (fun f pe => set1 f pe.1 input) st.desired_owner
      let stA := { st with desired_owner := desA }
      match repack_fabric_and_commit clock env stA with
      | (stB, true) => (stB, true)
      | (stB, false) =>
        let desC := edits.foldl (fun f pe => set1 f pe.1 pe.2) stB.desired_owner
        let stC := { stB with desired_owner := desC }
        ((repack_fabric_and_commit clock env stC).1, false)

/-- Transactional Clear (`apply_clear_request`): stage every port owned by
the input, zero them, repack; an empty edit set is a successful no-op; on
repack failure restore and re-solve. -/
def apply_clear_request (clock : Nat → Int) (env : Env) (st : St)
    (input : Nat) : St × Bool :=
  if ¬ valid_port env.n input then (st, false)
  else
    let edits := (List.range (env.n * env.n)).filterMap fun q =>
      if st.desired_owner (q + 1) = input then some (q + 1, input) else none
    if edits.length = 0 then (st, true)
    else
      let desA := edits.foldl (fun f pe => set1 f pe.1 0) st.desired_owner
      let stA := { st with desired_owner := desA }
      match repack_fabric_and_commit clock env stA with
      | (stB, true) => (stB, true)
      | (stB, false) =>
        let desC := edits.foldl (fun f pe => set1 f pe.1 pe.2) stB.desired_owner
        let stC := { stB with desired_owner := desC }
        ((repack_fabric_and_commit clock env stC).1, false)

/-- Startup parameters: fabric size, previous-state spine vector with its
presence flag, the strict-stability flag and the parsed lock records. -/
structure Setup where
  n : Nat
  prev : Nat → Int
  havePrev : Bool
  strict : Bool
  lockEntries : List (Int × Int × Int)

/-- The immutable environment resulting from startup. -/
def Setup.env (su : Setup) : Env :=
  { n := su.n, prev_s3_port_spine := su.prev,
    have_previous_state := su.havePrev, strict_stability := su.strict,
    have_locks := (load_locks su.n su.lockEntries).have_locks,
    lock_spine_for := (load_locks su.n su.lockEntries).lock_spine_for }

/-- The initial system state (`init_fabric` plus `load_locks`): declared
state empty, matrices zero, port spines `-1`, conflicts as recorded at
lock-load time. -/
def Setup.st0 (su : Setup) : St :=
  { desired_owner := fun _ => 0,
    s1_to_s2 := fun _ _ => 0,
    s2_to_s3 := fun _ _ => 0,
    s3_port_owner := fun _ => 0,
    s3_port_spine := fun _ => -1,
    conflicts := (load_locks su.n su.lockEntries).conflicts,
    last_stability_cost := 0,
    prog := ⟨0, 0, []⟩ }

/-- One command of the input stream. -/
inductive Cmd where
  | route (input : Nat) (targets : List Nat)
  | clear (input : Nat)

/-- State transition of one command (the Bool result is discarded by the
command loop, as in `process_command_string`). -/
def stepCmd (clock : Nat → Int) (env : Env) (st : St) : Cmd → St
  | .route i ts => (apply_route_request clock env st i ts).1
  | .clear i => (apply_clear_request clock env st i).1

/-- States reachable by running commands from the startup state. -/
inductive Reach (clock : Nat → Int) (su : Setup) : St → Prop where
  | init : Reach clock su su.st0
  | step {st : St} (c : Cmd) : Reach clock su st → Reach clock su (stepCmd clock su.env st c)

/-! ### Concrete instances used by witnesses and counterexamples -/

/-- A constant clock; the progress reports it produces never matter. -/
def zeroClock : Nat → Int := fun _ => 0

/-- Environment of the cost-mismatch instance: `N = 3`, previous state
present, no locks, strict stability off. -/
def envMism : Env :=
  { n := 3, prev_s3_port_spine := fun p => [(-1 : Int), -1, 0, 1, 2, 2, -1, 1, 2, 1].getD p (-1),
    have_previous_state := true, strict_stability := false,
    have_locks := false, lock_spine_for := fun _ _ => -1 }

/-- Declared state of the cost-mismatch instance: ports `2..9` owned by
inputs `2, 8, 6, 7, 5, 9, 1, 4`. -/
def stMism : St :=
  { desired_owner := fun p => [0, 0, 2, 8, 6, 7, 5, 9, 1, 4].getD p 0,
    s1_to_s2 := fun _ _ => 0, s2_to_s3 := fun _ _ => 0,
    s3_port_owner := fun _ => 0, s3_port_spine := fun _ => -1,
    conflicts := [], last_stability_cost := 0, prog := ⟨0, 0, []⟩ }

/-- Number of demands of a committed state whose realised spine differs
from a defined previous spine — the spec's stability-cost formula
`|{ k : p_prev(d_k) ≥ 0 ∧ assign[k] ≠ p_prev(d_k) }|` evaluated on the
fabric a solve actually committed (the realised spine of demand `(i, e)`
is read off any output port of block `e` owned by `i`). -/
def committedChangedDemands (env : Env) (desired : Nat → Nat) (st : St) : Nat :=
  match build_demands env.n desired with
  | none => 0
  | some dl =>
    (dl.filter fun d =>
      let spineHere := ((List.range (env.n * env.n)).filterMap fun q =>
        if desired (q + 1) = d.input_id ∧ get_block env.n (q + 1) = d.egress_block
        then some (st.s3_port_spine (q + 1)) else none).getD 0 (-1)
      decide (prev_spine_for env desired d.input_id d.egress_block ≥ 0) &&
      decide (spineHere ≠ prev_spine_for env desired d.input_id d.egress_block)).length

/-- Setup with a single out-of-range lock record (input 0): `load_locks`
records a RANGE conflict, stores no lock (`have_locks` stays false), and
does not abort. -/
def suRange : Setup :=
  { n := 2, prev := fun _ => -1, havePrev := false, strict := false,
    lockEntries := [((0 : Int), (0 : Int), (0 : Int))] }

/-- Setup with two well-formed, pairwise-compatible-at-load locks
`(1,0) → 0` and `(3,0) → 0` (they conflict only when both demands
exist). -/
def suLockPair : Setup :=
  { n := 2, prev := fun _ => -1, havePrev := false, strict := false,
    lockEntries := [((1 : Int), (0 : Int), (0 : Int)), ((3 : Int), (0 : Int), (0 : Int))] }

/-- State after `Route(1, [1])` succeeds under `suLockPair`. -/
def stLockA : St := (apply_route_request zeroClock suLockPair.env suLockPair.st0 1 [1]).1

/-- State after the subsequent `Route(3, [2])` fails with a lock CONFLICT
(recorded persistently) and is rolled back. -/
def stLockB : St := (apply_route_request zeroClock suLockPair.env stLockA 3 [2]).1

/-- Empty setup (`N = 2`, no previous state, no locks). -/
def suEmpty : Setup :=
  { n := 2, prev := fun _ => -1, havePrev := false, strict := false, lockEntries := [] }

/-! ### Lemmas about `validate_fabric` -/

theorem validate_fabric_part1 {env : Env} {st : St}
    (h : validate_fabric env st = true) :
    ∀ sp, sp < env.n → ∀ e, e < env.n → st.s2_to_s3 sp e ≠ 0 →
      (valid_port env.n (st.s2_to_s3 sp e) = true ∧
        st.s1_to_s2 (get_block env.n (st.s2_to_s3 sp e)) sp = st.s2_to_s3 sp e) := by
  intro sp hsp e he hne
  unfold validate_fabric at h
  simp only [Bool.and_eq_true, List.all_eq_true, List.mem_range] at h
  obtain ⟨⟨h1, _⟩, _⟩ := h
  have hx := h1 sp hsp e he
  simp only [Bool.or_eq_true, Bool.and_eq_true, beq_iff_eq] at hx
  rcases hx with h0 | ⟨hv, heq⟩
  · exact absurd h0 hne
  · exact ⟨hv, heq⟩

theorem validate_fabric_part2 {env : Env} {st : St}
    (h : validate_fabric env st = true) :
    ∀ q, q < env.n * env.n →
      (st.s3_port_owner (q + 1) = 0 → st.s3_port_spine (q + 1) = -1) ∧
      (st.s3_port_owner (q + 1) ≠ 0 →
        valid_port env.n (st.s3_port_owner (q + 1)) = true ∧
        0 ≤ st.s3_port_spine (q + 1) ∧ st.s3_port_spine (q + 1) < (env.n : Int) ∧
        st.s2_to_s3 (st.s3_port_spine (q + 1)).toNat (get_block env.n (q + 1)) =
          st.s3_port_owner (q + 1)) := by
  intro q hq
  unfold validate_fabric at h
  simp only [Bool.and_eq_true, List.all_eq_true, List.mem_range] at h
  obtain ⟨⟨_, h2⟩, _⟩ := h
  have := h2 q hq
  constructor
  · intro h0
    rw [if_pos h0] at this
    simpa using this
  · intro hne
    rw [if_neg hne] at this
    simp only [Bool.and_eq_true, decide_eq_true_eq, beq_iff_eq] at this
    exact ⟨this.1.1.1, this.1.1.2, this.1.2, this.2⟩

theorem validate_fabric_part3 {env : Env} {st : St}
    (h : validate_fabric env st = true) :
    ∀ q, q < env.n * env.n → st.desired_owner (q + 1) = st.s3_port_owner (q + 1) := by
  intro q hq
  unfold validate_fabric at h
  simp only [Bool.and_eq_true, List.all_eq_true, List.mem_range] at h
  have hx := h.2 q hq
  simpa using hx

/-- Successful repack means the committed state passed `validate_fabric`. -/
theorem repack_true_validate {clock : Nat → Int} {env : Env} {st : St}
    (h : (repack_fabric_and_commit clock env st).2 = true) :
    validate_fabric env (repack_fabric_and_commit clock env st).1 = true := by
  rcases hs : solve_and_build_solution clock env st with ⟨stx, osol⟩
  cases osol with
  | none => simp [repack_fabric_and_commit, hs] at h
  | some sol =>
    by_cases hv : validate_fabric env (commit_solution stx sol) = true
    · simp [repack_fabric_and_commit, hs, hv]
    · simp only [Bool.not_eq_true] at hv
      simp [repack_fabric_and_commit, hs, hv] at h

/-- The five invariants of the data model, stated over a committed state. -/
def fabricInvariants (env : Env) (st : St) : Prop :=
  (∀ sp, sp < env.n → ∀ e, e < env.n → st.s2_to_s3 sp e ≠ 0 →
    st.s1_to_s2 (get_block env.n (st.s2_to_s3 sp e)) sp = st.s2_to_s3 sp e) ∧
  (∀ p, 1 ≤ p → p ≤ env.n * env.n →
    (st.s3_port_owner p ≠ 0 →
      1 ≤ st.s3_port_owner p ∧ st.s3_port_owner p ≤ env.n * env.n ∧
      0 ≤ st.s3_port_spine p ∧ st.s3_port_spine p < (env.n : Int) ∧
      st.s2_to_s3 (st.s3_port_spine p).toNat (get_block env.n p) = st.s3_port_owner p) ∧
    (st.s3_port_owner p = 0 → st.s3_port_spine p = -1)) ∧
  (∀ p, 1 ≤ p → p ≤ env.n * env.n → st.s3_port_owner p = st.desired_owner p) ∧
  (∀ sp e i j, st.s2_to_s3 sp e = i → i ≠ 0 → st.s2_to_s3 sp e = j → j ≠ 0 → i = j) ∧
  (∀ b sp i j, st.s1_to_s2 b sp = i → i ≠ 0 → st.s1_to_s2 b sp = j → j ≠ 0 → i = j)

/-- C1: after every successful solve-and-commit (`repack_fabric_and_commit`
returning `true`), the committed fabric state satisfies all five
invariants of the data model: populated spine→egress trunks imply the
matching ingress→spine ownership; every owned output port has its owner
in range, its spine in `[0, N)` and agreeing with the trunk matrix, and
free ports carry the `-1` spine sentinel; the fabric realises
`desired_owner` exactly; and each trunk cell holds at most one non-zero
owner (invariants 4 and 5 hold by construction, a trunk being a single
matrix cell). -/
theorem C1_invariants_after_successful_repack {clock : Nat → Int} {env : Env}
    {st : St} (h : (repack_fabric_and_commit clock env st).2 = true) :
    fabricInvariants env (repack_fabric_and_commit clock env st).1 := by
  have hv := repack_true_validate h
  refine ⟨?_, ?_, ?_, ?_, ?_⟩
  · intro sp hsp e he hne
    exact (validate_fabric_part1 hv sp hsp e he hne).2
  · intro p hp1 hp2
    obtain ⟨q, rfl⟩ : ∃ q, p = q + 1 := ⟨p - 1, by omega⟩
    have hq : q < env.n * env.n := by omega
    have h2 := validate_fabric_part2 hv q hq
    refine ⟨?_, h2.1⟩
    intro hne
    obtain ⟨hvp, hrest⟩ := h2.2 hne
    simp only [valid_port, Bool.and_eq_true, decide_eq_true_eq] at hvp
    exact ⟨hvp.1, hvp.2, hrest⟩
  · intro p hp1 hp2
    obtain ⟨q, rfl⟩ : ∃ q, p = q + 1 := ⟨p - 1, by omega⟩
    exact (validate_fabric_part3 hv q (by omega)).symm
  · intro sp e i j hi _ hj _
    rw [← hi, hj]
  · intro b sp i j hi _ hj _
    rw [← hi, hj]

/-- Witness for C1: on the empty startup state at `N = 2` the repack
succeeds, and the resulting committed state satisfies the invariants. -/
theorem C1_witness :
    (repack_fabric_and_commit zeroClock suEmpty.env suEmpty.st0).2 = true ∧
    fabricInvariants suEmpty.env (repack_fabric_and_commit zeroClock suEmpty.env suEmpty.st0).1 :=
  ⟨by decide, C1_invariants_after_successful_repack (by decide)⟩

/-! ### C5: the committed assignment can disagree with the reported cost -/

/-- C5 (code bug): on the concrete `N = 3` instance `stMism` the solve
succeeds and the commit passes `validate_fabric`, the solver reports
`last_stability_cost = 3`, yet the committed assignment changes 4 demands
away from their defined previous spines (the spec formula
`|{ k : p_prev(d_k) ≥ 0 ∧ assign[k] ≠ p_prev(d_k) }|` evaluates to 4).
The root cause is that the MRV heuristic keeps permuting the shared
`demands` array after `best_assignment` was recorded, and the rebuild
pairs `demands[i]` with `best_assignment[i]` of a different order; the
returned solution is then also not cost-minimal among the complete
assignments the search reached (one of cost 3 was reached). -/
theorem C5_cost_misreport_at_failing_input :
    (repack_fabric_and_commit zeroClock envMism stMism).2 = true ∧
    (solve_and_build_solution zeroClock envMism stMism).1.last_stability_cost = 3 ∧
    committedChangedDemands envMism stMism.desired_owner
      (repack_fabric_and_commit zeroClock envMism stMism).1 = 4 := by
  refine ⟨by decide, by decide, by decide⟩

/-! ### C6: a Clear on a feasible committed state can fail -/

/-- C6 (code bug): with locks `(1,0) → 0` and `(3,0) → 0` loaded without
any load-time conflict, `Route(1, [1])` succeeds (a committed state
produced by a successful solve under the current locks), the later
`Route(3, [2])` fails with a lock CONFLICT that is recorded in the
never-cleared `lock_conflicts` list and rolled back — and then
`Clear(1)`, which only shrinks the demand set of a feasible committed
state, fails as well, because `validate_locks_against_demands` rejects
every solve once `lock_conflict_count` is non-zero.  The source itself
calls this path "unexpected failure after clear". -/
theorem C6_clear_fails_on_feasible_state :
    (load_locks 2 suLockPair.lockEntries).conflicts = [] ∧
    (apply_route_request zeroClock suLockPair.env suLockPair.st0 1 [1]).2 = true ∧
    (apply_route_request zeroClock suLockPair.env stLockA 3 [2]).2 = false ∧
    (apply_clear_request zeroClock suLockPair.env stLockB 1).2 = false := by
  refine ⟨by decide, by decide, by decide, by decide⟩

/-! ### C8: recorded conflicts poison every later solve -/

theorem lockCheckStep_conflicts_extends (env : Env) (desired : Nat → Nat)
    (st : LockCheck) (pr : Nat × Nat) :
    ∃ suf, (lockCheckStep env desired st pr).conflicts = st.conflicts ++ suf := by
  unfold lockCheckStep
  dsimp only
  split_ifs <;>
    first
      | exact ⟨[], (List.append_nil _).symm⟩
      | exact ⟨_, rfl⟩
      | exact ⟨_, List.append_assoc _ _ _⟩

theorem lockCheck_foldl_conflicts_extends (env : Env) (desired : Nat → Nat) :
    ∀ (l : List (Nat × Nat)) (st : LockCheck),
      ∃ suf, (l.foldl (lockCheckStep env desired) st).conflicts = st.conflicts ++ suf := by
  intro l
  induction l with
  | nil => intro st; exact ⟨[], (List.append_nil _).symm⟩
  | cons p rest ih =>
    intro st
    obtain ⟨s1, h1⟩ := lockCheckStep_conflicts_extends env desired st p
    obtain ⟨s2, h2⟩ := ih (lockCheckStep env desired st p)
    exact ⟨s1 ++ s2, by simp [h2, h1]⟩

/-- Once the persistent conflict list is non-empty,
`validate_locks_against_demands` fails. -/
theorem validate_locks_fails_of_conflicts {env : Env} {desired : Nat → Nat}
    {conflicts0 : List LockConflict} (h : conflicts0 ≠ []) :
    (validate_locks_against_demands env desired conflicts0).2 = false := by
  unfold validate_locks_against_demands
  split
  · simpa using h
  · obtain ⟨suf, hsuf⟩ := lockCheck_foldl_conflicts_extends env desired
      (lockPairs env.n) ⟨fun _ _ => 0, fun _ _ => 0, conflicts0, true⟩
    dsimp only at hsuf ⊢
    rw [hsuf]
    have : (conflicts0 ++ suf).isEmpty = false := by
      cases conflicts0 with
      | nil => exact absurd rfl h
      | cons a l => simp [List.isEmpty]
    simp [this]

/-- Shared lemma: a non-empty persistent conflict list makes every solve
fail. -/
theorem solve_none_of_conflicts (clock : Nat → Int) (env : Env)
    (st : St) (h : st.conflicts ≠ []) :
    (solve_and_build_solution clock env st).2 = none := by
  unfold solve_and_build_solution
  rcases hb : build_demands env.n st.desired_owner with _ | dl
  · rfl
  · rcases hv : validate_locks_against_demands env st.desired_owner st.conflicts
      with ⟨c', ok⟩
    have hok : ok = false := by
      have := @validate_locks_fails_of_conflicts env st.desired_owner _ h
      rw [hv] at this
      exact this
    subst hok
    simp

/-- C8 amended: once any lock conflict has been recorded (at load time or
by an earlier solve), every subsequent solve fails with `UNSAT(LOCK)`,
regardless of whether its demand set involves any conflicting lock. -/
theorem C8_amended_conflicts_poison_every_solve (clock : Nat → Int) (env : Env)
    (st : St) (h : st.conflicts ≠ []) :
    (solve_and_build_solution clock env st).2 = none :=
  solve_none_of_conflicts clock env st h

/-- Witness for the amended C8 on the RANGE-conflict setup. -/
theorem C8_amended_witness :
    suRange.st0.conflicts ≠ [] ∧
    (solve_and_build_solution zeroClock suRange.env suRange.st0).2 = none :=
  ⟨by decide, C8_amended_conflicts_poison_every_solve zeroClock suRange.env suRange.st0 (by decide)⟩

/-- C8 counterexample: a single RANGE-invalid lock record does not abort
loading and stores no lock at all (`have_locks = false`), so no solve's
demand set can involve any conflicting lock; yet the very first solve —
and with it `Route(1, [1])` — fails, contradicting the claim that a solve
whose demand set does not involve a conflicting lock succeeds despite
recorded load-time conflicts. -/
theorem C8_counterexample_range_conflict_blocks_unrelated_solve :
    (load_locks 2 suRange.lockEntries).conflicts ≠ [] ∧
    (load_locks 2 suRange.lockEntries).have_locks = false ∧
    (solve_and_build_solution zeroClock suRange.env suRange.st0).2.isNone = true ∧
    (apply_route_request zeroClock suRange.env suRange.st0 1 [1]).2 = false := by
  refine ⟨by decide, by decide, by decide, by decide⟩

/-! ### C9: `build_demands` never overflows and emits in ascending order -/

/-- Strict ascending order on demands by `(input_id, egress_block)`. -/
def demandLT (d1 d2 : Demand) : Prop :=
  d1.input_id < d2.input_id ∨
    (d1.input_id = d2.input_id ∧ d1.egress_block < d2.egress_block)

/-- The demands emitted for one active input: one per set bit of its
egress bitmask, in ascending egress order. -/
def emittedFor (n : Nat) (desired : Nat → Nat) (i : Nat) : List Demand :=
  ((List.range n).filter fun e => needMask n desired i e).map
    fun e => ⟨i, get_block n i, e⟩

/-- The full demand list in specification form. -/
def demandSpec (n : Nat) (desired : Nat → Nat) : List Demand :=
  (active_inputs n desired).flatMap (emittedFor n desired)

theorem buildDemandsEmit_eq (n : Nat) (desired : Nat → Nat) (maxD i ingress : Nat) :
    ∀ (es : List Nat) (acc : List Demand), acc.length + es.length ≤ maxD →
      buildDemandsEmit n desired maxD i ingress es acc =
        some (acc ++ (es.filter fun e => needMask n desired i e).map
          fun e => ⟨i, ingress, e⟩) := by
  intro es
  induction es with
  | nil => intro acc _; simp [buildDemandsEmit]
  | cons e rest ih =>
    intro acc hlen
    simp only [List.length_cons] at hlen
    by_cases hm : needMask n desired i e = true
    · have hlt : ¬ acc.length ≥ maxD := by omega
      have hih := ih (acc ++ [(⟨i, ingress, e⟩ : Demand)])
        (by rw [List.length_append]; simp; omega)
      rw [buildDemandsEmit, if_pos hm, if_neg hlt, hih]
      simp [hm]
    · have hih := ih acc (by omega)
      rw [buildDemandsEmit, if_neg hm, hih]
      simp [hm]

theorem emittedFor_length_le (n : Nat) (desired : Nat → Nat) (i : Nat) :
    (emittedFor n desired i).length ≤ n := by
  unfold emittedFor
  calc (((List.range n).filter fun e => needMask n desired i e).map
          fun e => (⟨i, get_block n i, e⟩ : Demand)).length
      = ((List.range n).filter fun e => needMask n desired i e).length := by
        rw [List.length_map]
    _ ≤ (List.range n).length := List.length_filter_le _ _
    _ = n := List.length_range n

theorem buildDemandsGo_eq (n : Nat) (desired : Nat → Nat) (maxD : Nat) :
    ∀ (inputs : List Nat) (acc : List Demand),
      acc.length + n * inputs.length ≤ maxD →
      buildDemandsGo n desired maxD inputs acc =
        some (acc ++ inputs.flatMap (emittedFor n desired)) := by
  intro inputs
  induction inputs with
  | nil => intro acc _; simp [buildDemandsGo]
  | cons i rest ih =>
    intro acc hlen
    simp only [List.length_cons, Nat.mul_succ] at hlen
    have hemit := buildDemandsEmit_eq n desired maxD i (get_block n i)
      (List.range n) acc (by rw [List.length_range]; omega)
    have hemit' : buildDemandsEmit n desired maxD i (get_block n i) (List.range n) acc =
        some (acc ++ emittedFor n desired i) := hemit
    have hlen2 : (acc ++ emittedFor n desired i).length + n * rest.length ≤ maxD := by
      rw [List.length_append]
      have := emittedFor_length_le n desired i
      omega
    have hih := ih (acc ++ emittedFor n desired i) hlen2
    rw [buildDemandsGo, hemit']
    show buildDemandsGo n desired maxD rest (acc ++ emittedFor n desired i) = _
    rw [hih]
    simp [List.flatMap_cons, List.append_assoc]

theorem active_inputs_length_le (n : Nat) (desired : Nat → Nat) :
    (active_inputs n desired).length ≤ n * n := by
  calc (active_inputs n desired).length
      ≤ (List.range (n * n)).length := List.length_filterMap_le _ _
    _ = n * n := List.length_range _

/-- The demand builder always succeeds, returning the specification-form
demand list (the overflow abort is unreachable). -/
theorem build_demands_eq (n : Nat) (desired : Nat → Nat) :
    build_demands n desired = some (demandSpec n desired) := by
  unfold build_demands demandSpec
  refine buildDemandsGo_eq n desired (n * n * n) (active_inputs n desired) [] ?_
  simp only [List.length_nil, Nat.zero_add]
  calc n * (active_inputs n desired).length
      ≤ n * (n * n) := Nat.mul_le_mul_left n (active_inputs_length_le n desired)
    _ = n * n * n := by ring

theorem demandSpec_length_le (n : Nat) (desired : Nat → Nat) :
    (demandSpec n desired).length ≤ n * n * n := by
  unfold demandSpec
  have key : ∀ l : List Nat, (l.flatMap (emittedFor n desired)).length ≤ n * l.length := by
    intro l
    induction l with
    | nil => simp
    | cons i rest ih =>
      simp only [List.flatMap_cons, List.length_append, List.length_cons, Nat.mul_succ]
      have := emittedFor_length_le n desired i
      omega
  calc ((active_inputs n desired).flatMap (emittedFor n desired)).length
      ≤ n * (active_inputs n desired).length := key _
    _ ≤ n * (n * n) := Nat.mul_le_mul_left n (active_inputs_length_le n desired)
    _ = n * n * n := by ring

theorem active_inputs_pairwise (n : Nat) (desired : Nat → Nat) :
    (active_inputs n desired).Pairwise (· < ·) := by
  unfold active_inputs
  exact (List.pairwise_lt_range (n * n)).filterMap _ (by
    intro a a' hlt b hb b' hb'
    simp only [Option.mem_def] at hb hb'
    split at hb <;> simp_all
    omega)

theorem mem_active_inputs (n : Nat) (desired : Nat → Nat) (i : Nat) :
    i ∈ active_inputs n desired ↔
      1 ≤ i ∧ i ≤ n * n ∧ inputActive n desired i = true := by
  unfold active_inputs
  simp only [List.mem_filterMap, List.mem_range]
  constructor
  · rintro ⟨q, hq, hsome⟩
    split at hsome
    · cases hsome; exact ⟨by omega, by omega, by assumption⟩
    · cases hsome
  · rintro ⟨h1, h2, hact⟩
    exact ⟨i - 1, by omega, by rw [show i - 1 + 1 = i from by omega]; simp [hact]⟩

theorem emittedFor_pairwise (n : Nat) (desired : Nat → Nat) (i : Nat) :
    (emittedFor n desired i).Pairwise demandLT := by
  unfold emittedFor
  rw [List.pairwise_map]
  exact ((List.pairwise_lt_range n).sublist (List.filter_sublist _)).imp
    (fun h => Or.inr ⟨rfl, h⟩)

theorem mem_emittedFor (n : Nat) (desired : Nat → Nat) (i : Nat) (d : Demand) :
    d ∈ emittedFor n desired i ↔
      ∃ e, e < n ∧ needMask n desired i e = true ∧ d = ⟨i, get_block n i, e⟩ := by
  unfold emittedFor
  simp only [List.mem_map, List.mem_filter, List.mem_range]
  constructor
  · rintro ⟨e, ⟨he, hm⟩, rfl⟩; exact ⟨e, he, hm, rfl⟩
  · rintro ⟨e, he, hm, rfl⟩; exact ⟨e, ⟨he, hm⟩, rfl⟩

theorem demandSpec_pairwise (n : Nat) (desired : Nat → Nat) :
    (demandSpec n desired).Pairwise demandLT := by
  unfold demandSpec
  have key : ∀ l : List Nat, l.Pairwise (· < ·) →
      (l.flatMap (emittedFor n desired)).Pairwise demandLT := by
    intro l
    induction l with
    | nil => intro _; simp
    | cons i rest ih =>
      intro hl
      rw [List.flatMap_cons, List.pairwise_append]
      rcases List.pairwise_cons.mp hl with ⟨hlt, hrest⟩
      refine ⟨emittedFor_pairwise n desired i, ih hrest, ?_⟩
      intro a ha b hb
      obtain ⟨e, _, _, rfl⟩ := (mem_emittedFor n desired i a).mp ha
      obtain ⟨i', hi', hb'⟩ := List.mem_flatMap.mp hb
      obtain ⟨e', _, _, rfl⟩ := (mem_emittedFor n desired i' b).mp hb'
      exact Or.inl (hlt i' hi')
  exact key _ (active_inputs_pairwise n desired)

/-- A set need bit lives below `N`: the egress block of a real port is
always in range. -/
theorem needMask_egress_lt {n : Nat} {desired : Nat → Nat} {i e : Nat}
    (hm : needMask n desired i e = true) : e < n := by
  unfold needMask at hm
  simp only [Bool.and_eq_true, List.any_eq_true, List.mem_range, beq_iff_eq,
    decide_eq_true_eq] at hm
  obtain ⟨-, q, hq, -, hblk⟩ := hm
  rw [← hblk]
  unfold get_block
  simp only [Nat.add_sub_cancel]
  exact Nat.div_lt_of_lt_mul hq

/-- Membership in the demand list: exactly the `(input, egress)` pairs
with a declared port, with the ingress block derived from the input. -/
theorem mem_demandSpec (n : Nat) (desired : Nat → Nat) (d : Demand) :
    d ∈ demandSpec n desired ↔
      1 ≤ d.input_id ∧ d.input_id ≤ n * n ∧
      needMask n desired d.input_id d.egress_block = true ∧
      d.ingress_block = get_block n d.input_id := by
  unfold demandSpec
  rw [List.mem_flatMap]
  constructor
  · rintro ⟨i, hi, hd⟩
    obtain ⟨e, he, hm, rfl⟩ := (mem_emittedFor n desired i d).mp hd
    obtain ⟨h1, h2, _⟩ := (mem_active_inputs n desired i).mp hi
    exact ⟨h1, h2, hm, rfl⟩
  · rintro ⟨h1, h2, hm, hing⟩
    refine ⟨d.input_id, (mem_active_inputs n desired d.input_id).mpr
      ⟨h1, h2, ?_⟩, (mem_emittedFor n desired d.input_id d).mpr
      ⟨d.egress_block, needMask_egress_lt hm, hm, ?_⟩⟩
    · unfold inputActive
      rw [List.any_eq_true]
      exact ⟨d.egress_block, List.mem_range.mpr (needMask_egress_lt hm), hm⟩
    · cases d; simp_all

/-- C9: for every declared state, `build_demands` succeeds (the demand
overflow abort returning `-1` is unreachable), the emitted count never
exceeds `N² · N`, each `(input_id, egress_block)` pair is emitted at most
once, and demands are emitted in strictly ascending
`(input_id, egress_block)` order. -/
theorem C9_build_demands_bounded_sorted (n : Nat) (desired : Nat → Nat) :
    ∃ l, build_demands n desired = some l ∧ l.length ≤ n * n * n ∧
      l.Pairwise demandLT :=
  ⟨demandSpec n desired, build_demands_eq n desired,
    demandSpec_length_le n desired, demandSpec_pairwise n desired⟩

/-! ### C3: capacity loads are structurally bounded by `N` -/

/-- The first declared port of input `i` in egress block `e` (0-based
witness index), used to bound the number of distinct inputs needing a
block by the number of ports of the block. -/
def wPort (n : Nat) (desired : Nat → Nat) (i e : Nat) : Nat :=
  (((List.range (n * n)).find? fun q =>
    desired (q + 1) == i && get_block n (q + 1) == e)).getD 0

theorem wPort_spec {n : Nat} {desired : Nat → Nat} {i e : Nat}
    (hm : needMask n desired i e = true) :
    wPort n desired i e < n * n ∧ desired (wPort n desired i e + 1) = i ∧
      get_block n (wPort n desired i e + 1) = e := by
  unfold needMask at hm
  simp only [Bool.and_eq_true, decide_eq_true_eq] at hm
  obtain ⟨-, hany⟩ := hm
  have hsome : (((List.range (n * n)).find? fun q =>
      desired (q + 1) == i && get_block n (q + 1) == e)).isSome := by
    rw [List.find?_isSome]
    simpa using hany
  obtain ⟨w, hw⟩ := Option.isSome_iff_exists.mp hsome
  have hmem := List.mem_of_find?_eq_some hw
  have hpred := List.find?_some hw
  simp only [Bool.and_eq_true, beq_iff_eq] at hpred
  unfold wPort
  rw [hw]
  exact ⟨List.mem_range.mp hmem, hpred.1, hpred.2⟩

/-- Bridge between the list filter count and a `Finset` cardinality. -/
theorem length_filter_range_eq_card (m : Nat) (p : Nat → Bool) :
    ((List.range m).filter p).length =
      ((Finset.range m).filter fun q => p q = true).card := by
  induction m with
  | zero => rfl
  | succ k ih =>
    rw [List.range_succ, List.filter_append, List.length_append,
      Finset.range_succ, Finset.filter_insert]
    by_cases hp : p k = true
    · rw [if_pos hp, Finset.card_insert_of_not_mem (by simp)]
      simp [hp, ih]
    · rw [if_neg hp]
      simp [hp, ih]

/-- At most `N` ports of `[1, N²]` lie in any one block. -/
theorem card_block_ports_le (n e : Nat) :
    ((Finset.range (n * n)).filter fun q => get_block n (q + 1) = e).card ≤ n := by
  rcases Nat.eq_zero_or_pos n with h0 | hn
  · subst h0; simp
  · have hsub : ((Finset.range (n * n)).filter fun q => get_block n (q + 1) = e) ⊆
        Finset.Ico (e * n) (e * n + n) := by
      intro q hq
      simp only [Finset.mem_filter, Finset.mem_range] at hq
      obtain ⟨-, hblk⟩ := hq
      unfold get_block at hblk
      simp only [Nat.add_sub_cancel] at hblk
      rw [Finset.mem_Ico]
      constructor
      · calc e * n = q / n * n := by rw [hblk]
          _ ≤ q := Nat.div_mul_le_self q n
      · have : q / n < e + 1 := by omega
        have := (Nat.div_lt_iff_lt_mul hn).mp this
        calc q < (e + 1) * n := this
          _ = e * n + n := by ring
    calc ((Finset.range (n * n)).filter fun q => get_block n (q + 1) = e).card
        ≤ (Finset.Ico (e * n) (e * n + n)).card := Finset.card_le_card hsub
      _ = n := by rw [Nat.card_Ico]; omega

/-- Every egress load is at most `N`: distinct inputs needing block `e`
inject into the ports of block `e`. -/
theorem egressLoad_le (n : Nat) (desired : Nat → Nat) (e : Nat) :
    egressLoad n desired e ≤ n := by
  unfold egressLoad
  rw [length_filter_range_eq_card]
  have hinj : Set.InjOn (fun q => wPort n desired (q + 1) e)
      ((Finset.range (n * n)).filter fun q => needMask n desired (q + 1) e = true) := by
    intro q1 hq1 q2 hq2 heq
    simp only [Finset.coe_filter, Set.mem_setOf_eq, Finset.mem_range] at hq1 hq2
    have h1 := (wPort_spec hq1.2).2.1
    have h2 := (wPort_spec hq2.2).2.1
    simp only [heq] at h1
    omega
  have hmaps : ∀ q ∈ (Finset.range (n * n)).filter
      (fun q => needMask n desired (q + 1) e = true),
      wPort n desired (q + 1) e ∈
        (Finset.range (n * n)).filter fun q => get_block n (q + 1) = e := by
    intro q hq
    simp only [Finset.mem_filter, Finset.mem_range] at hq ⊢
    exact ⟨(wPort_spec hq.2).1, (wPort_spec hq.2).2.2⟩
  calc ((Finset.range (n * n)).filter fun q => needMask n desired (q + 1) e = true).card
      ≤ ((Finset.range (n * n)).filter fun q => get_block n (q + 1) = e).card :=
        Finset.card_le_card_of_injOn _ hmaps hinj
    _ ≤ n := card_block_ports_le n e

/-- Every ingress load is at most `N`: the active inputs of ingress block
`b` are among the `N` identities of that block. -/
theorem ingressLoad_le (n : Nat) (desired : Nat → Nat) (b : Nat) :
    ingressLoad n desired b ≤ n := by
  unfold ingressLoad
  rw [length_filter_range_eq_card]
  calc ((Finset.range (n * n)).filter fun q =>
        (inputActive n desired (q + 1) && (get_block n (q + 1) == b)) = true).card
      ≤ ((Finset.range (n * n)).filter fun q => get_block n (q + 1) = b).card := by
        refine Finset.card_le_card ?_
        intro q hq
        simp only [Finset.mem_filter, Finset.mem_range, Bool.and_eq_true,
          beq_iff_eq] at hq ⊢
        exact ⟨hq.1, hq.2.2⟩
    _ ≤ n := card_block_ports_le n b

/-- C3: the capacity pre-check and its trigger condition.  The claim's
premise — some egress block needed by more than `N` distinct inputs, or
some ingress block with more than `N` distinct active inputs — is
impossible for any declared state: an egress block has exactly `N` output
ports (each with a single declared owner), and an ingress block contains
exactly `N` input identities.  Hence the claimed conditional behaviour
(`quick_capacity_check` returns false and the solve fails with
`UNSAT(CAPACITY)`) holds vacuously, the `UNSAT(CAPACITY)` branch of
`solve_and_build_solution` is unreachable, and the claim's converse —
when neither count exceeds `N` the check returns true — holds because
`quick_capacity_check` always returns true. -/
theorem C3_capacity_check_always_true (n : Nat) (desired : Nat → Nat) :
    quick_capacity_check n desired = true ∧
      ¬ ((∃ e, e < n ∧ n < egressLoad n desired e) ∨
         (∃ b, b < n ∧ n < ingressLoad n desired b)) := by
  constructor
  · unfold quick_capacity_check
    rw [Bool.and_eq_true]
    constructor
    · rw [List.all_eq_true]
      intro e _
      simpa using egressLoad_le n desired e
    · rw [List.all_eq_true]
      intro b _
      simpa using ingressLoad_le n desired b
  · rintro (⟨e, -, hgt⟩ | ⟨b, -, hgt⟩)
    · exact absurd (egressLoad_le n desired e) (by omega)
    · exact absurd (ingressLoad_le n desired b) (by omega)

/-! ### C7: the search result is independent of the clock and of the
progress-reporting state -/

theorem completeStep_fst_indep (s : SCtx) (p p' : Prog) :
    (completeStep s p).1 = (completeStep s p').1 := by
  unfold completeStep
  dsimp only
  split_ifs <;> rfl

theorem completeStep_found_indep (s : SCtx) (p p' : Prog) :
    (completeStep s p).2.2 = (completeStep s p').2.2 := by
  unfold completeStep
  dsimp only
  split_ifs <;> rfl

theorem tryCands_indep
    (r₁ r₂ : SCtx → Prog → SCtx × Prog × Bool)
    (hr : ∀ s p₁ p₂, (r₁ s p₁).1 = (r₂ s p₂).1 ∧ (r₁ s p₁).2.2 = (r₂ s p₂).2.2)
    (prevSp : Int) (d : Demand) (depth : Nat) :
    ∀ (cands : List Nat) (s : SCtx) (p₁ p₂ : Prog),
      (tryCands r₁ prevSp d depth cands s p₁).1 =
        (tryCands r₂ prevSp d depth cands s p₂).1 ∧
      (tryCands r₁ prevSp d depth cands s p₁).2.2 =
        (tryCands r₂ prevSp d depth cands s p₂).2.2 := by
  intro cands
  induction cands with
  | nil => intro s p₁ p₂; exact ⟨rfl, rfl⟩
  | cons c rest ih =>
    intro s p₁ p₂
    by_cases h1 : ¬ trunkFree (s.tmp_s2 c d.egress_block) d.input_id = true
    · simp only [tryCands, if_pos h1]
      exact ih s p₁ p₂
    · by_cases h2 : ¬ trunkFree (s.tmp_s1_owner d.ingress_block c) d.input_id = true
      · simp only [tryCands, if_neg h1, if_pos h2]
        exact ih s p₁ p₂
      · simp only [tryCands, if_neg h1, if_neg h2]
        obtain ⟨hs, hb⟩ := hr
          { s with
            tmp_s2 := set2 s.tmp_s2 c d.egress_block d.input_id,
            tmp_s1_owner := set2 s.tmp_s1_owner d.ingress_block c d.input_id,
            assignment := set1 s.assignment depth c,
            used_spines := set2 s.used_spines d.input_id c true,
            stability_cost := s.stability_cost +
              (if prevSp ≥ 0 ∧ (c : Int) ≠ prevSp then 1 else 0) } p₁ p₂
        rcases e₁ : r₁
          { s with
            tmp_s2 := set2 s.tmp_s2 c d.egress_block d.input_id,
            tmp_s1_owner := set2 s.tmp_s1_owner d.ingress_block c d.input_id,
            assignment := set1 s.assignment depth c,
            used_spines := set2 s.used_spines d.input_id c true,
            stability_cost := s.stability_cost +
              (if prevSp ≥ 0 ∧ (c : Int) ≠ prevSp then 1 else 0) } p₁
          with ⟨sR₁, pR₁, f₁⟩
        rcases e₂ : r₂
          { s with
            tmp_s2 := set2 s.tmp_s2 c d.egress_block d.input_id,
            tmp_s1_owner := set2 s.tmp_s1_owner d.ingress_block c d.input_id,
            assignment := set1 s.assignment depth c,
            used_spines := set2 s.used_spines d.input_id c true,
            stability_cost := s.stability_cost +
              (if prevSp ≥ 0 ∧ (c : Int) ≠ prevSp then 1 else 0) } p₂
          with ⟨sR₂, pR₂, f₂⟩
        rw [e₁, e₂] at hs hb
        simp only at hs hb
        subst hs
        subst hb
        by_cases hf : f₁ ∧ sR₁.best_stability_cost = 0
        · simp [e₁, e₂, hf]
        · simp only [e₁, e₂, if_neg hf]
          exact ih _ pR₁ pR₂

theorem backtrack_clock_indep (env : Env) (prevFor : Nat → Nat → Int) :
    ∀ (fuel : Nat) (s : SCtx) (depth : Nat) (c₁ c₂ : Nat → Int) (p₁ p₂ : Prog),
      (backtrack c₁ env prevFor fuel s p₁ depth).1 =
        (backtrack c₂ env prevFor fuel s p₂ depth).1 ∧
      (backtrack c₁ env prevFor fuel s p₁ depth).2.2 =
        (backtrack c₂ env prevFor fuel s p₂ depth).2.2 := by
  intro fuel
  induction fuel with
  | zero =>
    intro s depth c₁ c₂ p₁ p₂
    by_cases h1 : s.stability_cost ≥ s.best_stability_cost
    · simp [backtrack, h1]
    · by_cases h2 : depth = s.num_demands
      · simp only [backtrack, if_neg h1, if_pos h2]
        exact ⟨completeStep_fst_indep _ _ _, completeStep_found_indep _ _ _⟩
      · simp [backtrack, h1, h2]
  | succ fuel ih =>
    intro s depth c₁ c₂ p₁ p₂
    by_cases h1 : s.stability_cost ≥ s.best_stability_cost
    · simp [backtrack, h1]
    · by_cases h2 : depth = s.num_demands
      · simp only [backtrack, if_neg h1, if_pos h2]
        exact ⟨completeStep_fst_indep _ _ _, completeStep_found_indep _ _ _⟩
      · rcases hm : mrvScan (fun k => domain_size env s (s.demands k))
            (List.range' depth (s.num_demands - depth)) none 999 with _ | obi
        · simp [backtrack, h1, h2, hm]
        · rcases obi with _ | besti
          · simp [backtrack, h1, h2, hm]
          · simp only [backtrack, if_neg (by omega : ¬ s.stability_cost ≥ s.best_stability_cost),
              if_neg h2, hm]
            set sA : SCtx :=
              if besti ≠ depth then
                { s with demands := swapF s.demands depth besti,
                         assignment := swapF s.assignment depth besti }
              else s with hsA
            set d := sA.demands depth with hd
            set lockedSpine : Int :=
              if env.have_locks then env.lock_spine_for d.input_id d.egress_block else -1
              with hls
            by_cases hlk : lockedSpine ≥ 0
            · simp only [if_pos hlk]
              by_cases hc1 : ¬ trunkFree (sA.tmp_s2 lockedSpine.toNat d.egress_block)
                  d.input_id = true
              · simp [hc1]
              · by_cases hc2 : ¬ trunkFree (sA.tmp_s1_owner d.ingress_block
                    lockedSpine.toNat) d.input_id = true
                · simp [hc1, hc2]
                · simp only [if_neg hc1, if_neg hc2]
                  obtain ⟨hs, hb⟩ := ih
                    { sA with
                      tmp_s2 := set2 sA.tmp_s2 lockedSpine.toNat d.egress_block d.input_id,
                      tmp_s1_owner := set2 sA.tmp_s1_owner d.ingress_block
                        lockedSpine.toNat d.input_id,
                      assignment := set1 sA.assignment depth lockedSpine.toNat,
                      used_spines := set2 sA.used_spines d.input_id lockedSpine.toNat true,
                      stability_cost := sA.stability_cost +
                        (if prevFor d.input_id d.egress_block ≥ 0 ∧
                          (lockedSpine.toNat : Int) ≠ prevFor d.input_id d.egress_block
                          then 1 else 0) }
                    (depth + 1) c₁ c₂
                    (progressStep c₁ p₁ depth s.num_demands s.best_stability_cost)
                    (progressStep c₂ p₂ depth s.num_demands s.best_stability_cost)
                  rcases e₁ : backtrack c₁ env prevFor fuel
                    { sA with
                      tmp_s2 := set2 sA.tmp_s2 lockedSpine.toNat d.egress_block d.input_id,
                      tmp_s1_owner := set2 sA.tmp_s1_owner d.ingress_block
                        lockedSpine.toNat d.input_id,
                      assignment := set1 sA.assignment depth lockedSpine.toNat,
                      used_spines := set2 sA.used_spines d.input_id lockedSpine.toNat true,
                      stability_cost := sA.stability_cost +
                        (if prevFor d.input_id d.egress_block ≥ 0 ∧
                          (lockedSpine.toNat : Int) ≠ prevFor d.input_id d.egress_block
                          then 1 else 0) }
                    (progressStep c₁ p₁ depth s.num_demands s.best_stability_cost)
                    (depth + 1) with ⟨sR₁, pR₁, f₁⟩
                  rcases e₂ : backtrack c₂ env prevFor fuel
                    { sA with
                      tmp_s2 := set2 sA.tmp_s2 lockedSpine.toNat d.egress_block d.input_id,
                      tmp_s1_owner := set2 sA.tmp_s1_owner d.ingress_block
                        lockedSpine.toNat d.input_id,
                      assignment := set1 sA.assignment depth lockedSpine.toNat,
                      used_spines := set2 sA.used_spines d.input_id lockedSpine.toNat true,
                      stability_cost := sA.stability_cost +
                        (if prevFor d.input_id d.egress_block ≥ 0 ∧
                          (lockedSpine.toNat : Int) ≠ prevFor d.input_id d.egress_block
                          then 1 else 0) }
                    (progressStep c₂ p₂ depth s.num_demands s.best_stability_cost)
                    (depth + 1) with ⟨sR₂, pR₂, f₂⟩
                  rw [e₁, e₂] at hs hb
                  simp only at hs hb
                  subst hs
                  subst hb
                  by_cases hf : f₁ ∧ sR₁.best_stability_cost = 0
                  · simp [hf]
                  · simp [hf]
            · simp only [if_neg hlk]
              exact tryCands_indep _ _
                (fun sx px₁ px₂ => ih sx (depth + 1) c₁ c₂ px₁ px₂) _ _ _ _ sA
                (progressStep c₁ p₁ depth s.num_demands s.best_stability_cost)
                (progressStep c₂ p₂ depth s.num_demands s.best_stability_cost)

/-- Underlying determinism lemma: two solve runs over equal declared
state and conflict lists, with arbitrary clocks and progress states,
produce the same outcome, conflicts and (on success) stability cost. -/
theorem solve_outcome_indep
    (env : Env) (st₁ st₂ : St) (c₁ c₂ : Nat → Int)
    (hdes : st₁.desired_owner = st₂.desired_owner)
    (hconf : st₁.conflicts = st₂.conflicts) :
    (solve_and_build_solution c₁ env st₁).2 = (solve_and_build_solution c₂ env st₂).2 ∧
    (solve_and_build_solution c₁ env st₁).1.conflicts =
      (solve_and_build_solution c₂ env st₂).1.conflicts ∧
    ((solve_and_build_solution c₁ env st₁).2.isSome = true →
      (solve_and_build_solution c₁ env st₁).1.last_stability_cost =
        (solve_and_build_solution c₂ env st₂).1.last_stability_cost) := by
  unfold solve_and_build_solution
  rw [← hdes, ← hconf]
  rcases hb : build_demands env.n st₁.desired_owner with _ | dl
  · simp [hconf]
  · rcases hv : validate_locks_against_demands env st₁.desired_owner st₁.conflicts
      with ⟨cf', ok⟩
    cases ok with
    | false => simp
    | true =>
      by_cases hdl : dl.length = 0
      · simp [hdl]
      · by_cases hcap : quick_capacity_check env.n st₁.desired_owner = true
        · simp only [hdl, if_neg, hcap, if_true, Bool.not_true, not_false_eq_true,
            if_false, ite_false, ite_true]
          obtain ⟨hsf, -⟩ := backtrack_clock_indep env
            (prev_spine_for env st₁.desired_owner) dl.length (initialSCtx dl) 0
            c₁ c₂ st₁.prog st₂.prog
          rcases e₁ : backtrack c₁ env (prev_spine_for env st₁.desired_owner)
            dl.length (initialSCtx dl) st₁.prog 0 with ⟨sf₁, pf₁, b₁⟩
          rcases e₂ : backtrack c₂ env (prev_spine_for env st₁.desired_owner)
            dl.length (initialSCtx dl) st₂.prog 0 with ⟨sf₂, pf₂, b₂⟩
          rw [e₁, e₂] at hsf
          simp only at hsf
          subst hsf
          by_cases h999 : sf₁.best_stability_cost = 999999
          · simp [h999]
          · by_cases hstrict : env.strict_stability = true ∧ sf₁.best_stability_cost > 0
            · simp [h999, hstrict]
            · rcases hb3 : buildStage3 env.n st₁.desired_owner (applyDemands sf₁)
                (List.range (env.n * env.n))
                { s1 := (applyDemands sf₁).s1, s2 := (applyDemands sf₁).s2,
                  s3_owner := fun _ => 0, s3_spine := fun _ => -1 } with _ | sol
              · simp [h999, hstrict, hb3]
              · simp [h999, hstrict, hb3]
        · simp only [Bool.not_eq_true] at hcap
          simp [hdl, hcap]

/-- C7: the solve is deterministic and independent of the wall clock and
of the accumulated progress-reporting state.  Two runs of
`solve_and_build_solution` over the same declared state and conflict
list, under the same environment (same `N`, prior-spine vector, lock
table and strict flag) but with arbitrary different clocks and progress
states, produce the identical outcome: the same solution option (hence
identical `s1`, `s2`, `s3_owner`, `s3_spine` buffers on success), the
same resulting conflict list, and on success the same recorded best
stability cost. -/
theorem C7_solve_deterministic_clock_independent
    (env : Env) (st₁ st₂ : St) (c₁ c₂ : Nat → Int)
    (hdes : st₁.desired_owner = st₂.desired_owner)
    (hconf : st₁.conflicts = st₂.conflicts) :
    (solve_and_build_solution c₁ env st₁).2 = (solve_and_build_solution c₂ env st₂).2 ∧
    (solve_and_build_solution c₁ env st₁).1.conflicts =
      (solve_and_build_solution c₂ env st₂).1.conflicts ∧
    ((solve_and_build_solution c₁ env st₁).2.isSome = true →
      (solve_and_build_solution c₁ env st₁).1.last_stability_cost =
        (solve_and_build_solution c₂ env st₂).1.last_stability_cost) :=
  solve_outcome_indep env st₁ st₂ c₁ c₂ hdes hconf

/-- Witness for C7: the `N = 3` instance run once with the zero clock and
a fresh progress state, and once with a fast-advancing clock (a progress
report every attempt) and a stale progress state, yields the same
solution and the same reported stability cost. -/
theorem C7_witness :
    stMism.desired_owner =
      ({ stMism with prog := ⟨7, 42, [(1, 2, 3)]⟩ } : St).desired_owner ∧
    (solve_and_build_solution zeroClock envMism stMism).2 =
      (solve_and_build_solution (fun t => (t : Int) * 6000) envMism
        { stMism with prog := ⟨7, 42, [(1, 2, 3)]⟩ }).2 :=
  ⟨rfl, (C7_solve_deterministic_clock_independent envMism stMism
    { stMism with prog := ⟨7, 42, [(1, 2, 3)]⟩ } zeroClock
    (fun t => (t : Int) * 6000) rfl rfl).1⟩

/-! ### C2: field-preservation, conflict and rollback lemmas -/

/-- A solve never touches the declared state or the committed fabric. -/
theorem solve_preserves (c : Nat → Int) (env : Env) (st : St) :
    (solve_and_build_solution c env st).1.desired_owner = st.desired_owner ∧
    (solve_and_build_solution c env st).1.s1_to_s2 = st.s1_to_s2 ∧
    (solve_and_build_solution c env st).1.s2_to_s3 = st.s2_to_s3 ∧
    (solve_and_build_solution c env st).1.s3_port_owner = st.s3_port_owner ∧
    (solve_and_build_solution c env st).1.s3_port_spine = st.s3_port_spine := by
  unfold solve_and_build_solution
  rcases build_demands env.n st.desired_owner with _ | dl
  · exact ⟨rfl, rfl, rfl, rfl, rfl⟩
  · rcases validate_locks_against_demands env st.desired_owner st.conflicts with ⟨cf', ok⟩
    cases ok
    · simp
    · by_cases hdl : dl.length = 0
      · simp [hdl]
      · by_cases hcap : quick_capacity_check env.n st.desired_owner = true
        · simp only [hdl, hcap, if_true, ite_false, ite_true, Bool.not_true,
            not_false_eq_true, if_neg, if_false]
          rcases backtrack c env (prev_spine_for env st.desired_owner)
            dl.length (initialSCtx dl) st.prog 0 with ⟨sf, pf, b⟩
          by_cases h999 : sf.best_stability_cost = 999999
          · simp [h999]
          · by_cases hstrict : env.strict_stability = true ∧ sf.best_stability_cost > 0
            · simp [h999, hstrict]
            · rcases buildStage3 env.n st.desired_owner (applyDemands sf)
                (List.range (env.n * env.n))
                { s1 := (applyDemands sf).s1, s2 := (applyDemands sf).s2,
                  s3_owner := fun _ => 0, s3_spine := fun _ => -1 } with _ | sol
              · simp [h999, hstrict]
              · simp [h999, hstrict]
        · simp only [Bool.not_eq_true] at hcap
          simp [hdl, hcap]

/-- Repack in explicit case form: failure keeps the solve state, success
and failed validation both keep the committed state. -/
theorem repack_eq (c : Nat → Int) (env : Env) (st : St) :
    repack_fabric_and_commit c env st =
      (match solve_and_build_solution c env st with
        | (st', none) => (st', false)
        | (st', some sol) =>
          (commit_solution st' sol, validate_fabric env (commit_solution st' sol))) := by
  unfold repack_fabric_and_commit
  rcases solve_and_build_solution c env st with ⟨st', osol⟩
  cases osol with
  | none => rfl
  | some sol =>
    by_cases hv : validate_fabric env (commit_solution st' sol) = true
    · simp [hv]
    · simp only [Bool.not_eq_true] at hv
      simp [hv]

theorem repack_preserves_desired (c : Nat → Int) (env : Env) (st : St) :
    (repack_fabric_and_commit c env st).1.desired_owner = st.desired_owner := by
  rw [repack_eq]
  rcases hs : solve_and_build_solution c env st with ⟨st', osol⟩
  have hpres := (solve_preserves c env st).1
  rw [hs] at hpres
  cases osol with
  | none => exact hpres
  | some sol => exact hpres

/-- A successful solve requires and keeps an empty conflict list. -/
theorem solve_success_conflicts {c : Nat → Int} {env : Env} {st : St} {sol : FabricSolution}
    (h : (solve_and_build_solution c env st).2 = some sol) :
    st.conflicts = [] ∧ (solve_and_build_solution c env st).1.conflicts = [] := by
  by_cases hc : st.conflicts = []
  · refine ⟨hc, ?_⟩
    unfold solve_and_build_solution at h ⊢
    rcases hbd : build_demands env.n st.desired_owner with _ | dl
    · simp only [hbd] at h
      simp at h
    · simp only [hbd] at h ⊢
      rcases hv : validate_locks_against_demands env st.desired_owner st.conflicts
        with ⟨cf', ok⟩
      simp only [hv] at h ⊢
      cases ok
      · simp at h
      · have hcf : cf' = [] := by
          unfold validate_locks_against_demands at hv
          split at hv
          · have h1 : st.conflicts = cf' := congrArg Prod.fst hv
            exact h1 ▸ hc
          · rcases hv2 : (lockPairs env.n).foldl (lockCheckStep env st.desired_owner)
              ⟨fun _ _ => 0, fun _ _ => 0, st.conflicts, true⟩ with ⟨l2, l1, cfs, okx⟩
            simp only [hv2] at hv
            have hcf' : cfs = cf' := congrArg Prod.fst hv
            have hok : (okx && cfs.isEmpty) = true := congrArg Prod.snd hv
            simp only [Bool.and_eq_true] at hok
            rw [← hcf']
            exact List.isEmpty_iff.mp hok.2
        subst hcf
        by_cases hdl : dl.length = 0
        · simp [hdl]
        · by_cases hcap : quick_capacity_check env.n st.desired_owner = true
          · simp only [hdl, hcap, if_true, ite_false, ite_true, Bool.not_true,
              not_false_eq_true, if_neg, if_false] at h ⊢
            rcases hbt : backtrack c env (prev_spine_for env st.desired_owner)
              dl.length (initialSCtx dl) st.prog 0 with ⟨sf, pf, b⟩
            simp only [hbt] at h ⊢
            by_cases h999 : sf.best_stability_cost = 999999
            · simp [h999] at h
            · by_cases hstrict : env.strict_stability = true ∧ sf.best_stability_cost > 0
              · simp [h999, hstrict] at h
              · rcases hb3 : buildStage3 env.n st.desired_owner (applyDemands sf)
                  (List.range (env.n * env.n))
                  { s1 := (applyDemands sf).s1, s2 := (applyDemands sf).s2,
                    s3_owner := fun _ => 0, s3_spine := fun _ => -1 } with _ | sol'
                · simp [h999, hstrict, hb3] at h
                · simp [h999, hstrict, hb3]
          · simp only [Bool.not_eq_true] at hcap
            simp [hdl, hcap] at h
  · exact absurd (solve_none_of_conflicts c env st hc) (by simp [h])

/-- The empty declared state has no active inputs. -/
theorem active_inputs_empty (n : Nat) : active_inputs n (fun _ => 0) = [] := by
  unfold active_inputs
  rw [List.filterMap_eq_nil_iff]
  intro q hq
  have : inputActive n (fun _ => 0) (q + 1) = false := by
    unfold inputActive needMask
    simp
  simp [this]

/-- With no demand bits set, the lock-vs-demand scan is the identity. -/
theorem lockCheck_foldl_id_of_no_need (env : Env) (desired : Nat → Nat)
    (hno : ∀ i e, needMask env.n desired i e = false) :
    ∀ (l : List (Nat × Nat)) (st0 : LockCheck),
      l.foldl (lockCheckStep env desired) st0 = st0 := by
  intro l
  induction l with
  | nil => intro st0; rfl
  | cons p rest ih =>
    intro st0
    have hstep : lockCheckStep env desired st0 p = st0 := by
      unfold lockCheckStep
      by_cases h1 : env.lock_spine_for p.1 p.2 < 0
      · simp [h1]
      · simp [h1, hno]
    rw [List.foldl_cons, hstep, ih]

/-- On an empty declared state with no recorded conflicts, the solve
returns the trivial all-zero solution and keeps the conflicts empty. -/
theorem solve_empty_desired {c : Nat → Int} {env : Env} {st : St}
    (hdes : st.desired_owner = fun _ => 0) (hc : st.conflicts = []) :
    (solve_and_build_solution c env st).2 = some trivialSolution ∧
    (solve_and_build_solution c env st).1.conflicts = [] := by
  have hno : ∀ i e, needMask env.n st.desired_owner i e = false := by
    intro i e
    unfold needMask
    rw [hdes]
    simp only [Bool.and_eq_true, decide_eq_true_eq, List.any_eq_true, List.mem_range,
      beq_iff_eq, Bool.and_eq_false_iff, decide_eq_false_iff_not, not_exists,
      Bool.eq_false_iff, Ne, Bool.not_eq_true]
    simp
    intro hi x _ h0
    exact absurd h0.symm hi
  have hbd : build_demands env.n st.desired_owner = some [] := by
    rw [hdes, build_demands_eq]
    unfold demandSpec
    rw [active_inputs_empty]
    rfl
  have hvl : validate_locks_against_demands env st.desired_owner st.conflicts =
      ([], true) := by
    unfold validate_locks_against_demands
    split
    · rw [hc]; rfl
    · rw [lockCheck_foldl_id_of_no_need env st.desired_owner hno, hc]
      rfl
  unfold solve_and_build_solution
  rw [hbd, hvl]
  simp

/-- Edits staged by a Route record the original owner of each port. -/
theorem stageRouteEdits_vals (n : Nat) (desired : Nat → Nat) (input : Nat) :
    ∀ (targets : List Nat) (acc edits : List (Nat × Nat)),
      stageRouteEdits n desired input targets acc = some edits →
      (∀ pe ∈ acc, pe.2 = desired pe.1) → ∀ pe ∈ edits, pe.2 = desired pe.1 := by
  intro targets
  induction targets with
  | nil =>
    intro acc edits h hacc
    unfold stageRouteEdits at h
    cases h
    exact hacc
  | cons p rest ih =>
    intro acc edits h hacc
    unfold stageRouteEdits at h
    by_cases hvp : ¬ valid_port n p = true
    · rw [if_pos hvp] at h
      cases h
    · rw [if_neg hvp] at h
      dsimp only at h
      by_cases hownd : desired p ≠ 0 ∧ desired p ≠ input
      · rw [if_pos hownd] at h
        cases h
      · rw [if_neg hownd] at h
        by_cases hch : desired p ≠ input
        · rw [if_pos hch] at h
          refine ih _ edits h ?_
          intro pe hpe
          rcases List.mem_append.mp hpe with hin | hin
          · exact hacc pe hin
          · have := List.mem_singleton.mp hin
            subst this
            rfl
        · rw [if_neg hch] at h
          exact ih _ edits h hacc

/-- A fold of pointwise updates leaves un-edited ports unchanged. -/
theorem foldl_set1_not_mem {α : Type} (val : Nat × Nat → α) :
    ∀ (edits : List (Nat × Nat)) (f : Nat → α) (x : Nat),
      (∀ pe ∈ edits, pe.1 ≠ x) →
      (edits.foldl (fun h pe => set1 h pe.1 (val pe)) f) x = f x := by
  intro edits
  induction edits with
  | nil => intro f x _; rfl
  | cons pe rest ih =>
    intro f x hx
    rw [List.foldl_cons, ih _ x (fun q hq => hx q (List.mem_cons_of_mem _ hq))]
    unfold set1
    rw [if_neg (fun he => (hx pe (List.mem_cons_self _ _)) he.symm)]

/-- Rolling back recorded edits restores the original declared state:
if `g` agrees with `f₀` outside the edited ports and every edit records
`f₀`'s value, the rollback fold rebuilds `f₀` exactly. -/
theorem rollback_restores :
    ∀ (edits : List (Nat × Nat)) (g f₀ : Nat → Nat),
      (∀ x, (∀ pe ∈ edits, pe.1 ≠ x) → g x = f₀ x) →
      (∀ pe ∈ edits, pe.2 = f₀ pe.1) →
      edits.foldl (fun h pe => set1 h pe.1 pe.2) g = f₀ := by
  intro edits
  induction edits with
  | nil =>
    intro g f₀ hagree _
    funext x
    exact hagree x (by simp)
  | cons pe rest ih =>
    intro g f₀ hagree hvals
    rw [List.foldl_cons]
    refine ih _ f₀ ?_ (fun q hq => hvals q (List.mem_cons_of_mem _ hq))
    intro x hx
    unfold set1
    by_cases hxe : x = pe.1
    · rw [if_pos hxe]
      rw [hvals pe (List.mem_cons_self _ _), hxe]
    · rw [if_neg hxe]
      refine hagree x ?_
      intro q hq
      rcases List.mem_cons.mp hq with rfl | hq'
      · exact fun he => hxe he.symm
      · exact hx q hq'

/-- Equality of the four committed fabric arrays (bit-identical state). -/
def fabricEq (a b : St) : Prop :=
  a.s1_to_s2 = b.s1_to_s2 ∧ a.s2_to_s3 = b.s2_to_s3 ∧
  a.s3_port_owner = b.s3_port_owner ∧ a.s3_port_spine = b.s3_port_spine

/-- The conflict list only ever grows across a solve. -/
theorem solve_conflicts_extend (c : Nat → Int) (env : Env) (st : St) :
    ∃ suf, (solve_and_build_solution c env st).1.conflicts = st.conflicts ++ suf := by
  unfold solve_and_build_solution
  rcases hbd : build_demands env.n st.desired_owner with _ | dl
  · exact ⟨[], (List.append_nil _).symm⟩
  · rcases hv : validate_locks_against_demands env st.desired_owner st.conflicts
      with ⟨cf', ok⟩
    have hext : ∃ suf, cf' = st.conflicts ++ suf := by
      unfold validate_locks_against_demands at hv
      split at hv
      · have h1 : st.conflicts = cf' := congrArg Prod.fst hv
        exact ⟨[], by rw [← h1, List.append_nil]⟩
      · obtain ⟨suf, hsuf⟩ := lockCheck_foldl_conflicts_extends env st.desired_owner
          (lockPairs env.n) ⟨fun _ _ => 0, fun _ _ => 0, st.conflicts, true⟩
        have h1 : ((lockPairs env.n).foldl (lockCheckStep env st.desired_owner)
          ⟨fun _ _ => 0, fun _ _ => 0, st.conflicts, true⟩).conflicts = cf' :=
          congrArg Prod.fst hv
        exact ⟨suf, by rw [← h1, hsuf]⟩
    simp only [hv]
    cases ok
    · simpa using hext
    · by_cases hdl : dl.length = 0
      · simpa [hdl] using hext
      · by_cases hcap : quick_capacity_check env.n st.desired_owner = true
        · simp only [hdl, hcap, if_true, ite_false, ite_true, Bool.not_true,
            not_false_eq_true, if_neg, if_false]
          rcases backtrack c env (prev_spine_for env st.desired_owner)
            dl.length (initialSCtx dl) st.prog 0 with ⟨sf, pf, b⟩
          by_cases h999 : sf.best_stability_cost = 999999
          · simpa [h999] using hext
          · by_cases hstrict : env.strict_stability = true ∧ sf.best_stability_cost > 0
            · simpa [h999, hstrict] using hext
            · rcases buildStage3 env.n st.desired_owner (applyDemands sf)
                (List.range (env.n * env.n))
                { s1 := (applyDemands sf).s1, s2 := (applyDemands sf).s2,
                  s3_owner := fun _ => 0, s3_spine := fun _ => -1 } with _ | sol
              · simpa [h999, hstrict] using hext
              · simpa [h999, hstrict] using hext
        · simp only [Bool.not_eq_true] at hcap
          simpa [hdl, hcap] using hext

/-- System invariant: whenever no lock conflict is recorded, the current
declared state solves successfully and the committed fabric is exactly
the solution of that solve. -/
def SysInv (clock : Nat → Int) (env : Env) (st : St) : Prop :=
  st.conflicts = [] →
    ∃ sol, (solve_and_build_solution clock env st).2 = some sol ∧
      st.s1_to_s2 = sol.s1 ∧ st.s2_to_s3 = sol.s2 ∧
      st.s3_port_owner = sol.s3_owner ∧ st.s3_port_spine = sol.s3_spine

/-- Master lemma for a transactional edit: starting from an invariant
state, edit the declared state to `f`, repack; on success the edit is
kept and the invariant holds; on failure, rolling the declared state
back (via any `rollFun` that recovers the original) and re-solving
restores the declared state and the fabric bit-identically, and
preserves the invariant. -/
theorem txn_rollback (clock : Nat → Int) (env : Env) (st : St) (f : Nat → Nat)
    (rollFun : (Nat → Nat) → Nat → Nat)
    (hroll : rollFun f = st.desired_owner) (hinv : SysInv clock env st) :
    (∀ stB, repack_fabric_and_commit clock env { st with desired_owner := f } =
        (stB, false) →
      ((repack_fabric_and_commit clock env
          { stB with desired_owner := rollFun stB.desired_owner }).1.desired_owner =
        st.desired_owner ∧
       fabricEq (repack_fabric_and_commit clock env
          { stB with desired_owner := rollFun stB.desired_owner }).1 st ∧
       SysInv clock env (repack_fabric_and_commit clock env
          { stB with desired_owner := rollFun stB.desired_owner }).1)) ∧
    (∀ stB, repack_fabric_and_commit clock env { st with desired_owner := f } =
        (stB, true) →
      stB.desired_owner = f ∧ SysInv clock env stB) := by
  have hpresA := solve_preserves clock env { st with desired_owner := f }
  constructor
  · intro stB hfail
    have hBdes : stB.desired_owner = f := by
      have := repack_preserves_desired clock env { st with desired_owner := f }
      rw [hfail] at this
      exact this
    have hCdes : ({ stB with desired_owner := rollFun stB.desired_owner } : St).desired_owner
        = st.desired_owner := by
      show rollFun stB.desired_owner = st.desired_owner
      rw [hBdes, hroll]
    -- analyse the second repack
    rcases hs2 : solve_and_build_solution clock env
        { stB with desired_owner := rollFun stB.desired_owner } with ⟨stY, osol2⟩
    have hpresC := solve_preserves clock env
      { stB with desired_owner := rollFun stB.desired_owner }
    rw [hs2] at hpresC
    cases osol2 with
    | none =>
      -- no commit: final state is the solve state, fabric = stB's fabric
      have hrp2 : repack_fabric_and_commit clock env
          { stB with desired_owner := rollFun stB.desired_owner } = (stY, false) := by
        rw [repack_eq, hs2]
      rw [hrp2]
      -- stB's fabric: case on the first repack
      have hBfab : fabricEq stB st ∨
          (∃ solA, (solve_and_build_solution clock env
              { st with desired_owner := f }).2 = some solA ∧
            stB.s1_to_s2 = solA.s1 ∧ stB.s2_to_s3 = solA.s2 ∧
            stB.s3_port_owner = solA.s3_owner ∧ stB.s3_port_spine = solA.s3_spine ∧
            stB.conflicts = []) := by
        rw [repack_eq] at hfail
        rcases hs1 : solve_and_build_solution clock env
            { st with desired_owner := f } with ⟨stX, osol1⟩
        rw [hs1] at hfail hpresA
        cases osol1 with
        | none =>
          simp only at hfail
          rcases Prod.mk.injEq .. ▸ hfail with ⟨rfl, -⟩
          exact Or.inl ⟨hpresA.2.1, hpresA.2.2.1, hpresA.2.2.2.1, hpresA.2.2.2.2⟩
        | some solA =>
          simp only at hfail
          rcases Prod.mk.injEq .. ▸ hfail with ⟨rfl, -⟩
          refine Or.inr ⟨solA, rfl, rfl, rfl, rfl, rfl, ?_⟩
          have := (@solve_success_conflicts clock env
            { st with desired_owner := f } solA (by rw [hs1])).2
          rw [hs1] at this
          exact this
      rcases hBfab with hfabB | ⟨solA, hsomeA, hb1, hb2, hb3, hb4, hBconf⟩
      · -- first repack did not commit: fabric unchanged throughout
        refine ⟨hpresC.1.trans hCdes, ?_, ?_⟩
        · exact ⟨hpresC.2.1.trans hfabB.1, hpresC.2.2.1.trans hfabB.2.1,
            hpresC.2.2.2.1.trans hfabB.2.2.1, hpresC.2.2.2.2.trans hfabB.2.2.2⟩
        · -- invariant: if the final conflicts are empty, the original ones were
          intro hYconf
          obtain ⟨suf2, hsuf2⟩ := solve_conflicts_extend clock env
            { stB with desired_owner := rollFun stB.desired_owner }
          rw [hs2] at hsuf2
          simp only at hsuf2
          rw [hYconf] at hsuf2
          have hBconf : stB.conflicts = [] := by
            rcases List.append_eq_nil.mp hsuf2.symm with ⟨h1, -⟩
            exact h1
          -- then the re-solve cannot have failed: contradiction
          obtain ⟨suf1, hsuf1⟩ := solve_conflicts_extend clock env
            { st with desired_owner := f }
          have hstconf : st.conflicts = [] := by
            rw [repack_eq] at hfail
            rcases hs1 : solve_and_build_solution clock env
                { st with desired_owner := f } with ⟨stX, osol1⟩
            rw [hs1] at hfail hsuf1
            cases osol1 with
            | none =>
              simp only at hfail
              rcases Prod.mk.injEq .. ▸ hfail with ⟨rfl, -⟩
              simp only at hsuf1
              rw [hBconf] at hsuf1
              rcases List.append_eq_nil.mp hsuf1.symm with ⟨h1, -⟩
              exact h1
            | some solA =>
              exact (@solve_success_conflicts clock env
                { st with desired_owner := f } solA (by rw [hs1])).1
          obtain ⟨sol₀, hsol₀, hf1, hf2, hf3, hf4⟩ := hinv hstconf
          have hind := (solve_outcome_indep env
            { stB with desired_owner := rollFun stB.desired_owner } st clock clock
            hCdes (by show stB.conflicts = st.conflicts; rw [hBconf, hstconf])).1
          rw [hs2] at hind
          simp only at hind
          rw [hsol₀] at hind
          cases hind
      · -- first repack committed a solution but validation failed;
        -- the re-solve reproduces the pre-edit solution and recommits it
        exfalso
        -- in fact this none case is impossible: show re-solve succeeds
        have hstconf : st.conflicts = [] := by
          have := (@solve_success_conflicts clock env
            { st with desired_owner := f } solA hsomeA).1
          exact this
        obtain ⟨sol₀, hsol₀, -⟩ := hinv hstconf
        have hind := (solve_outcome_indep env
          { stB with desired_owner := rollFun stB.desired_owner } st clock clock
          hCdes (by show stB.conflicts = st.conflicts; rw [hBconf, hstconf])).1
        rw [hs2, hsol₀] at hind
        cases hind
    | some sol2 =>
      -- the re-solve succeeded: it recommits the pre-edit solution
      have hrp2 : repack_fabric_and_commit clock env
          { stB with desired_owner := rollFun stB.desired_owner } =
          (commit_solution stY sol2,
            validate_fabric env (commit_solution stY sol2)) := by
        rw [repack_eq, hs2]
      have hCconf : ({ stB with desired_owner := rollFun stB.desired_owner } : St).conflicts
          = [] :=
        (@solve_success_conflicts clock env
          { stB with desired_owner := rollFun stB.desired_owner } sol2 (by rw [hs2])).1
      have hBconf : stB.conflicts = [] := hCconf
      have hstconf : st.conflicts = [] := by
        rw [repack_eq] at hfail
        rcases hs1 : solve_and_build_solution clock env
            { st with desired_owner := f } with ⟨stX, osol1⟩
        rw [hs1] at hfail
        cases osol1 with
        | none =>
          simp only at hfail
          rcases Prod.mk.injEq .. ▸ hfail with ⟨rfl, -⟩
          obtain ⟨suf1, hsuf1⟩ := solve_conflicts_extend clock env
            { st with desired_owner := f }
          rw [hs1] at hsuf1
          simp only at hsuf1
          rw [hBconf] at hsuf1
          rcases List.append_eq_nil.mp hsuf1.symm with ⟨h1, -⟩
          exact h1
        | some solA =>
          exact (@solve_success_conflicts clock env
            { st with desired_owner := f } solA (by rw [hs1])).1
      obtain ⟨sol₀, hsol₀, hf1, hf2, hf3, hf4⟩ := hinv hstconf
      have hind := (solve_outcome_indep env
        { stB with desired_owner := rollFun stB.desired_owner } st clock clock
        hCdes (by show stB.conflicts = st.conflicts; rw [hBconf, hstconf])).1
      rw [hs2, hsol₀] at hind
      simp only at hind
      have hsol2 : sol2 = sol₀ := Option.some.inj hind
      subst hsol2
      rw [hrp2]
      refine ⟨?_, ⟨?_, ?_, ?_, ?_⟩, ?_⟩
      · show stY.desired_owner = st.desired_owner
        exact hpresC.1.trans hCdes
      · show sol2.s1 = st.s1_to_s2
        exact hf1.symm
      · show sol2.s2 = st.s2_to_s3
        exact hf2.symm
      · show sol2.s3_owner = st.s3_port_owner
        exact hf3.symm
      · show sol2.s3_spine = st.s3_port_spine
        exact hf4.symm
      · -- invariant for the recommitted state
        intro _
        refine ⟨sol2, ?_, rfl, rfl, rfl, rfl⟩
        have hind2 := (solve_outcome_indep env
          (commit_solution stY sol2) st clock clock
          (by show stY.desired_owner = st.desired_owner; exact hpresC.1.trans hCdes)
          (by show stY.conflicts = st.conflicts
              have h := (@solve_success_conflicts clock env
                { stB with desired_owner := rollFun stB.desired_owner } sol2
                (by rw [hs2])).2
              rw [hs2] at h
              have h0 : stY.conflicts = [] := h
              rw [h0, hstconf])).1
        rw [hsol₀] at hind2
        exact hind2
  · intro stB hsucc
    have hBdes : stB.desired_owner = f := by
      have := repack_preserves_desired clock env { st with desired_owner := f }
      rw [hsucc] at this
      exact this
    refine ⟨hBdes, ?_⟩
    rw [repack_eq] at hsucc
    rcases hs1 : solve_and_build_solution clock env
        { st with desired_owner := f } with ⟨stX, osol1⟩
    rw [hs1] at hsucc hpresA
    cases osol1 with
    | none => simp at hsucc
    | some solA =>
      simp only at hsucc
      rcases Prod.mk.injEq .. ▸ hsucc with ⟨rfl, -⟩
      intro _
      refine ⟨solA, ?_, rfl, rfl, rfl, rfl⟩
      have hXconf : (commit_solution stX solA).conflicts = [] := by
        have := (@solve_success_conflicts clock env
          { st with desired_owner := f } solA (by rw [hs1])).2
        rw [hs1] at this
        exact this
      have hind := (solve_outcome_indep env
        (commit_solution stX solA) { st with desired_owner := f } clock clock
        (by show stX.desired_owner = f; exact hpresA.1)
        (by show stX.conflicts = ({ st with desired_owner := f } : St).conflicts
            have hAconf : ({ st with desired_owner := f } : St).conflicts = [] :=
              (@solve_success_conflicts clock env
                { st with desired_owner := f } solA (by rw [hs1])).1
            have hX0 : stX.conflicts = [] := hXconf
            rw [hX0, hAconf])).1
      rw [hs1] at hind
      simp only at hind
      exact hind

/-- The shared transactional tail of Route and Clear: apply the staged
edits (writing `newVal pe` at port `pe.1`), repack; on failure write the
recorded old values back and repack the restored state. -/
def txnApply (clock : Nat → Int) (env : Env) (st : St)
    (newVal : Nat × Nat → Nat) (edits : List (Nat × Nat)) : St × Bool :=
  let desA := edits.foldl (fun f pe => set1 f pe.1 (newVal pe)) st.desired_owner
  let stA := { st with desired_owner := desA }
  match repack_fabric_and_commit clock env stA with
  | (stB, true) => (stB, true)
  | (stB, false) =>
    let desC := edits.foldl (fun f pe => set1 f pe.1 pe.2) stB.desired_owner
    let stC := { stB with desired_owner := desC }
    ((repack_fabric_and_commit clock env stC).1, false)

/-- The transactional tail preserves the system invariant, and on failure
restores the declared state and the fabric bit-identically. -/
theorem txnApply_spec (clock : Nat → Int) (env : Env) (st : St)
    (newVal : Nat × Nat → Nat) (edits : List (Nat × Nat))
    (hvals : ∀ pe ∈ edits, pe.2 = st.desired_owner pe.1)
    (hinv : SysInv clock env st) :
    SysInv clock env (txnApply clock env st newVal edits).1 ∧
    ((txnApply clock env st newVal edits).2 = false →
      (txnApply clock env st newVal edits).1.desired_owner = st.desired_owner ∧
      fabricEq (txnApply clock env st newVal edits).1 st) := by
  have hroll : (fun g => edits.foldl (fun f pe => set1 f pe.1 pe.2) g)
      (edits.foldl (fun f pe => set1 f pe.1 (newVal pe)) st.desired_owner)
      = st.desired_owner :=
    rollback_restores edits _ st.desired_owner
      (fun x hx => foldl_set1_not_mem (fun pe => newVal pe) edits st.desired_owner x hx)
      hvals
  obtain ⟨hfail, hsucc⟩ := txn_rollback clock env st
    (edits.foldl (fun f pe => set1 f pe.1 (newVal pe)) st.desired_owner)
    (fun g => edits.foldl (fun f pe => set1 f pe.1 pe.2) g) hroll hinv
  unfold txnApply
  rcases hrp : repack_fabric_and_commit clock env
      { st with desired_owner :=
          edits.foldl (fun f pe => set1 f pe.1 (newVal pe)) st.desired_owner }
    with ⟨stB, b⟩
  cases b
  · obtain ⟨hd, hfab, hinv'⟩ := hfail stB hrp
    simp only [hrp]
    exact ⟨hinv', fun _ => ⟨hd, hfab⟩⟩
  · obtain ⟨-, hinv'⟩ := hsucc stB hrp
    simp only [hrp]
    exact ⟨hinv', fun h => by cases h⟩

/-- A Route request either leaves the state untouched and fails, or runs
the transactional tail on staged edits that record the old owners. -/
theorem apply_route_eq (clock : Nat → Int) (env : Env) (st : St)
    (input : Nat) (targets : List Nat) :
    apply_route_request clock env st input targets = (st, false) ∨
    ∃ edits, (∀ pe ∈ edits, pe.2 = st.desired_owner pe.1) ∧
      apply_route_request clock env st input targets =
        txnApply clock env st (fun _ => input) edits := by
  unfold apply_route_request
  by_cases h1 : valid_port env.n input = true
  · by_cases h2 : targets.length = 0
    · left
      rw [if_neg (by simp [h1]), if_pos h2]
    · rcases hst : stageRouteEdits env.n st.desired_owner input targets []
        with _ | edits
      · left
        rw [if_neg (by simp [h1]), if_neg h2]
      · right
        refine ⟨edits, stageRouteEdits_vals env.n st.desired_owner input targets []
          edits hst (by simp), ?_⟩
        rw [if_neg (by simp [h1]), if_neg h2]
        rfl
  · left
    rw [if_pos (by simp [h1])]

/-- A Clear request either leaves the state untouched, or runs the
transactional tail on staged edits that record the old owners. -/
theorem apply_clear_eq (clock : Nat → Int) (env : Env) (st : St) (input : Nat) :
    (apply_clear_request clock env st input).1 = st ∨
    ∃ edits, (∀ pe ∈ edits, pe.2 = st.desired_owner pe.1) ∧
      apply_clear_request clock env st input =
        txnApply clock env st (fun _ => 0) edits := by
  unfold apply_clear_request
  by_cases h1 : valid_port env.n input = true
  · by_cases h2 : ((List.range (env.n * env.n)).filterMap fun q =>
        if st.desired_owner (q + 1) = input then some (q + 1, input) else none).length = 0
    · left
      rw [if_neg (by simp [h1])]
      simp only [h2, if_pos]
    · right
      refine ⟨(List.range (env.n * env.n)).filterMap fun q =>
        if st.desired_owner (q + 1) = input then some (q + 1, input) else none,
        ?_, ?_⟩
      · intro pe hpe
        rcases List.mem_filterMap.mp hpe with ⟨q, -, hq⟩
        by_cases hown : st.desired_owner (q + 1) = input
        · rw [if_pos hown] at hq
          cases hq
          exact hown.symm
        · rw [if_neg hown] at hq
          cases hq
      · rw [if_neg (by simp [h1]), if_neg h2]
        rfl
  · left
    rw [if_pos (by simp [h1])]

/-- Every command preserves the system invariant. -/
theorem stepCmd_inv (clock : Nat → Int) (env : Env) (st : St) (c : Cmd)
    (hinv : SysInv clock env st) : SysInv clock env (stepCmd clock env st c) := by
  cases c with
  | route i ts =>
    show SysInv clock env (apply_route_request clock env st i ts).1
    rcases apply_route_eq clock env st i ts with h | ⟨edits, hvals, h⟩
    · rw [h]
      exact hinv
    · rw [h]
      exact (txnApply_spec clock env st (fun _ => i) edits hvals hinv).1
  | clear i =>
    show SysInv clock env (apply_clear_request clock env st i).1
    rcases apply_clear_eq clock env st i with h | ⟨edits, hvals, h⟩
    · rw [h]
      exact hinv
    · rw [h]
      exact (txnApply_spec clock env st (fun _ => 0) edits hvals hinv).1

/-- Every reachable state satisfies the system invariant. -/
theorem reach_inv (clock : Nat → Int) (su : Setup) (st : St)
    (h : Reach clock su st) : SysInv clock su.env st := by
  induction h with
  | init =>
    intro hc
    refine ⟨trivialSolution,
      (@solve_empty_desired clock su.env su.st0 rfl hc).1,
      rfl, rfl, rfl, rfl⟩
  | step c _ ih =>
    exact stepCmd_inv clock su.env _ c ih

/-- C2 (rollback atomicity): in any run of the program, a Route request
that fails leaves the declared-state vector `desired_owner` and the four
committed fabric matrices (`s1_to_s2`, `s2_to_s3`, `s3_port_owner`,
`s3_port_spine`) bit-identical to their values before the request: the
staged edits are reverted and the secondary repack of the restored
declared state reproduces the pre-Route fabric. -/
theorem C2_route_failure_rollback (clock : Nat → Int) (su : Setup) (st : St)
    (input : Nat) (targets : List Nat)
    (hreach : Reach clock su st)
    (hfail : (apply_route_request clock su.env st input targets).2 = false) :
    (apply_route_request clock su.env st input targets).1.desired_owner =
      st.desired_owner ∧
    fabricEq (apply_route_request clock su.env st input targets).1 st := by
  have hinv := reach_inv clock su st hreach
  rcases apply_route_eq clock su.env st input targets with h | ⟨edits, hvals, h⟩
  · rw [h]
    exact ⟨rfl, rfl, rfl, rfl, rfl⟩
  · rw [h] at hfail ⊢
    exact (txnApply_spec clock su.env st (fun _ => input) edits hvals hinv).2 hfail

/-- Witness for C2: from the reachable state after `Route(1,[1])` under
the lock pair, `Route(3,[2])` fails and the declared state and fabric are
restored bit-identically. -/
theorem C2_witness :
    (apply_route_request zeroClock suLockPair.env stLockA 3 [2]).2 = false ∧
    ((apply_route_request zeroClock suLockPair.env stLockA 3 [2]).1.desired_owner =
        stLockA.desired_owner ∧
      fabricEq (apply_route_request zeroClock suLockPair.env stLockA 3 [2]).1 stLockA) :=
  ⟨by decide, C2_route_failure_rollback zeroClock suLockPair stLockA 3 [2]
      (Reach.step (Cmd.route 1 [1]) Reach.init) (by decide)⟩

/-! ### Specification-level feasibility of assignments (for the sentinel
property): a complete assignment pairs each demand with a spine; the
constraints below are exactly what the search's trunk checks enforce. -/

/-- The demand/assignment pairs at positions `0..depth-1` of a solver
context — its placed prefix; at `depth = num_demands` the full pairing
that `completeStep` logs. -/
def prefixPairs (s : SCtx) (depth : Nat) : List (Demand × Nat) :=
  (List.range depth).map fun k => (s.demands k, s.assignment k)

/-- Compatibility of two placed demands: sharing an egress trunk cell or
an ingress trunk cell forces the same owning input. -/
def pairFeasRel (p q : Demand × Nat) : Prop :=
  (p.1.egress_block = q.1.egress_block → p.2 = q.2 → p.1.input_id = q.1.input_id) ∧
  (p.1.ingress_block = q.1.ingress_block → p.2 = q.2 → p.1.input_id = q.1.input_id)

/-- A feasible (partial or complete) assignment: real input ids, spines in
range, locked demands on their locked spine, and single ownership of every
trunk cell. -/
def feasiblePairs (env : Env) (pl : List (Demand × Nat)) : Prop :=
  (∀ pr ∈ pl, 0 < pr.1.input_id ∧ pr.2 < env.n ∧
    (env.have_locks → 0 ≤ env.lock_spine_for pr.1.input_id pr.1.egress_block →
      (pr.2 : Int) = env.lock_spine_for pr.1.input_id pr.1.egress_block)) ∧
  pl.Pairwise pairFeasRel

/-- The stability cost of an assignment as the spec defines it: the number
of pairs with a defined previous spine assigned to a different spine. -/
def pairCost (prevFor : Nat → Nat → Int) (pl : List (Demand × Nat)) : Nat :=
  (pl.filter fun pr =>
    decide (prevFor pr.1.input_id pr.1.egress_block ≥ 0) &&
    decide ((pr.2 : Int) ≠ prevFor pr.1.input_id pr.1.egress_block)).length

/-- What every ghost-logged completion satisfies: it is feasible, covers
exactly the demand list, and its logged cost is the spec cost. -/
def GoodEntry (env : Env) (prevFor : Nat → Nat → Int) (dl : List Demand)
    (entry : List (Demand × Nat) × Nat) : Prop :=
  feasiblePairs env entry.1 ∧ (entry.1.map Prod.fst).Perm dl ∧
  pairCost prevFor entry.1 = entry.2

/-- The egress trunk matrix a pair list induces (later pairs overwrite,
matching the in-place updates of the search). -/
def listS2 (pl : List (Demand × Nat)) : Nat → Nat → Nat :=
  pl.foldl (fun m pr => set2 m pr.2 pr.1.egress_block pr.1.input_id) fun _ _ => 0

/-- The ingress trunk matrix a pair list induces. -/
def listS1 (pl : List (Demand × Nat)) : Nat → Nat → Nat :=
  pl.foldl (fun m pr => set2 m pr.1.ingress_block pr.2 pr.1.input_id) fun _ _ => 0

/-- Invariant of a solver context with its first `depth` demands placed:
the demand map enumerates `dl`, the placed prefix is feasible, the
temporary matrices and the running cost are those of the prefix. -/
structure SearchInv (env : Env) (prevFor : Nat → Nat → Int) (dl : List Demand)
    (s : SCtx) (depth : Nat) : Prop where
  hdepth : depth ≤ s.num_demands
  hperm : ((List.range s.num_demands).map s.demands).Perm dl
  hfeas : feasiblePairs env (prefixPairs s depth)
  hm2 : ∀ x y, s.tmp_s2 x y = listS2 (prefixPairs s depth) x y
  hm1 : ∀ x y, s.tmp_s1_owner x y = listS1 (prefixPairs s depth) x y
  hcost : s.stability_cost = pairCost prevFor (prefixPairs s depth)

/-- What a call into the search guarantees about its result, relative to
its entry context: completions stay good, the best cost is either the
sentinel or the cost of a logged completion and never increases, a `true`
return means a perfect solution, and a `false` return restores the trunk
matrices, the used-spine words, the running cost and the prefix below the
entry depth. -/
def SearchOut (env : Env) (prevFor : Nat → Nat → Int) (dl : List Demand)
    (s : SCtx) (depth : Nat) (r : SCtx × Prog × Bool) : Prop :=
  r.1.num_demands = s.num_demands ∧
  ((List.range s.num_demands).map r.1.demands).Perm
    ((List.range s.num_demands).map s.demands) ∧
  (∀ e ∈ r.1.completions, GoodEntry env prevFor dl e) ∧
  (r.1.best_stability_cost = 999999 ∨
    ∃ e ∈ r.1.completions, e.2 = r.1.best_stability_cost) ∧
  r.1.best_stability_cost ≤ s.best_stability_cost ∧
  (r.2.2 = true → r.1.best_stability_cost = 0) ∧
  (r.2.2 = false →
    (∀ x y, r.1.tmp_s2 x y = s.tmp_s2 x y) ∧
    (∀ x y, r.1.tmp_s1_owner x y = s.tmp_s1_owner x y) ∧
    (∀ x y, r.1.used_spines x y = s.used_spines x y) ∧
    r.1.stability_cost = s.stability_cost ∧
    (∀ k, k < depth → r.1.demands k = s.demands k ∧ r.1.assignment k = s.assignment k))

theorem pairFeasRel_symm : Symmetric pairFeasRel := by
  intro p q h
  exact ⟨fun h1 h2 => (h.1 h1.symm h2.symm).symm,
         fun h1 h2 => (h.2 h1.symm h2.symm).symm⟩

theorem listS2_append (pl : List (Demand × Nat)) (pr : Demand × Nat) :
    listS2 (pl ++ [pr]) = set2 (listS2 pl) pr.2 pr.1.egress_block pr.1.input_id := by
  simp [listS2, List.foldl_append]

theorem listS1_append (pl : List (Demand × Nat)) (pr : Demand × Nat) :
    listS1 (pl ++ [pr]) = set2 (listS1 pl) pr.1.ingress_block pr.2 pr.1.input_id := by
  simp [listS1, List.foldl_append]

theorem foldlS2_nomatch :
    ∀ (pl : List (Demand × Nat)) (m : Nat → Nat → Nat) (c e : Nat),
      (∀ pr ∈ pl, ¬ (pr.2 = c ∧ pr.1.egress_block = e)) →
      pl.foldl (fun m pr => set2 m pr.2 pr.1.egress_block pr.1.input_id) m c e = m c e := by
  intro pl
  induction pl with
  | nil => intro m c e _; rfl
  | cons pr rest ih =>
    intro m c e hno
    rw [List.foldl_cons, ih _ c e (fun q hq => hno q (List.mem_cons_of_mem _ hq))]
    unfold set2
    rw [if_neg (fun hcell => hno pr (List.mem_cons_self _ _) ⟨hcell.1.symm, hcell.2.symm⟩)]

theorem foldlS1_nomatch :
    ∀ (pl : List (Demand × Nat)) (m : Nat → Nat → Nat) (b c : Nat),
      (∀ pr ∈ pl, ¬ (pr.1.ingress_block = b ∧ pr.2 = c)) →
      pl.foldl (fun m pr => set2 m pr.1.ingress_block pr.2 pr.1.input_id) m b c = m b c := by
  intro pl
  induction pl with
  | nil => intro m b c _; rfl
  | cons pr rest ih =>
    intro m b c hno
    rw [List.foldl_cons, ih _ b c (fun q hq => hno q (List.mem_cons_of_mem _ hq))]
    unfold set2
    rw [if_neg (fun hcell => hno pr (List.mem_cons_self _ _) ⟨hcell.1.symm, hcell.2.symm⟩)]

theorem foldlS2_match :
    ∀ (pl : List (Demand × Nat)) (m : Nat → Nat → Nat) (c e j : Nat),
      (∀ pr ∈ pl, pr.2 = c → pr.1.egress_block = e → pr.1.input_id = j) →
      (∃ pr ∈ pl, pr.2 = c ∧ pr.1.egress_block = e) →
      pl.foldl (fun m pr => set2 m pr.2 pr.1.egress_block pr.1.input_id) m c e = j := by
  intro pl
  induction pl with
  | nil => intro m c e j _ hex; simp at hex
  | cons pr rest ih =>
    intro m c e j hall hex
    rw [List.foldl_cons]
    by_cases hr : ∃ q ∈ rest, q.2 = c ∧ q.1.egress_block = e
    · exact ih _ c e j (fun q hq => hall q (List.mem_cons_of_mem _ hq)) hr
    · have hhd : pr.2 = c ∧ pr.1.egress_block = e := by
        rcases hex with ⟨q, hq, hqc⟩
        rcases List.mem_cons.mp hq with rfl | hq'
        · exact hqc
        · exact absurd ⟨q, hq', hqc⟩ hr
      rw [foldlS2_nomatch rest _ c e (fun q hq hqc => hr ⟨q, hq, hqc⟩)]
      unfold set2
      rw [if_pos ⟨hhd.1.symm, hhd.2.symm⟩]
      exact hall pr (List.mem_cons_self _ _) hhd.1 hhd.2

theorem foldlS1_match :
    ∀ (pl : List (Demand × Nat)) (m : Nat → Nat → Nat) (b c j : Nat),
      (∀ pr ∈ pl, pr.1.ingress_block = b → pr.2 = c → pr.1.input_id = j) →
      (∃ pr ∈ pl, pr.1.ingress_block = b ∧ pr.2 = c) →
      pl.foldl (fun m pr => set2 m pr.1.ingress_block pr.2 pr.1.input_id) m b c = j := by
  intro pl
  induction pl with
  | nil => intro m b c j _ hex; simp at hex
  | cons pr rest ih =>
    intro m b c j hall hex
    rw [List.foldl_cons]
    by_cases hr : ∃ q ∈ rest, q.1.ingress_block = b ∧ q.2 = c
    · exact ih _ b c j (fun q hq => hall q (List.mem_cons_of_mem _ hq)) hr
    · have hhd : pr.1.ingress_block = b ∧ pr.2 = c := by
        rcases hex with ⟨q, hq, hqc⟩
        rcases List.mem_cons.mp hq with rfl | hq'
        · exact hqc
        · exact absurd ⟨q, hq', hqc⟩ hr
      rw [foldlS1_nomatch rest _ b c (fun q hq hqc => hr ⟨q, hq, hqc⟩)]
      unfold set2
      rw [if_pos ⟨hhd.1.symm, hhd.2.symm⟩]
      exact hall pr (List.mem_cons_self _ _) hhd.1 hhd.2

theorem pairCost_append (prevFor : Nat → Nat → Int) (pl : List (Demand × Nat))
    (pr : Demand × Nat) :
    pairCost prevFor (pl ++ [pr]) = pairCost prevFor pl +
      (if prevFor pr.1.input_id pr.1.egress_block ≥ 0 ∧
          (pr.2 : Int) ≠ prevFor pr.1.input_id pr.1.egress_block then 1 else 0) := by
  unfold pairCost
  rw [List.filter_append, List.length_append]
  congr 1
  by_cases h1 : prevFor pr.1.input_id pr.1.egress_block ≥ 0
  · by_cases h2 : (pr.2 : Int) ≠ prevFor pr.1.input_id pr.1.egress_block
    · simp [h1, h2]
    · simp [h1, h2]
  · simp [h1]

theorem prefixPairs_congr (s t : SCtx) (depth : Nat)
    (h : ∀ k, k < depth → t.demands k = s.demands k ∧ t.assignment k = s.assignment k) :
    prefixPairs t depth = prefixPairs s depth := by
  unfold prefixPairs
  apply List.map_congr_left
  intro k hk
  have hk' := List.mem_range.mp hk
  rw [(h k hk').1, (h k hk').2]

theorem prefixPairs_succ (s : SCtx) (depth : Nat) :
    prefixPairs s (depth + 1) =
      prefixPairs s depth ++ [(s.demands depth, s.assignment depth)] := by
  unfold prefixPairs
  rw [List.range_succ, List.map_append]
  rfl

theorem candList_lt (n : Nat) (prevSp : Int) (usedRow : Nat → Bool) :
    ∀ c ∈ candList n prevSp usedRow, c < n := by
  intro c hc
  unfold candList at hc
  rcases List.mem_append.mp hc with h | h
  · rcases List.mem_append.mp h with h' | h' <;>
      exact List.mem_range.mp (List.mem_filter.mp h').1
  · exact List.mem_range.mp (List.mem_filter.mp h).1

theorem mrvScan_mem (dsz : Nat → Nat) :
    ∀ (l : List Nat) (besti : Option Nat) (bd : Nat) (i : Nat),
      mrvScan dsz l besti bd = some (some i) → i ∈ l ∨ besti = some i := by
  intro l
  induction l with
  | nil =>
    intro besti bd i h
    right
    exact Option.some.inj h
  | cons j rest ih =>
    intro besti bd i h
    unfold mrvScan at h
    by_cases h0 : dsz j = 0
    · simp [h0] at h
    · by_cases hlt : dsz j < bd
      · have hmid : (if dsz j = 1 then some (some j)
            else mrvScan dsz rest (some j) (dsz j)) = some (some i) := by
          simpa [h0, hlt] using h
        by_cases h1 : dsz j = 1
        · rw [if_pos h1] at hmid
          left
          rw [← Option.some.inj (Option.some.inj hmid)]
          exact List.mem_cons_self _ _
        · rw [if_neg h1] at hmid
          rcases ih (some j) (dsz j) i hmid with hm | he
          · exact Or.inl (List.mem_cons_of_mem _ hm)
          · left
            rw [← Option.some.inj he]
            exact List.mem_cons_self _ _
      · have h' : mrvScan dsz rest besti bd = some (some i) := by
          simpa [h0, hlt] using h
        rcases ih besti bd i h' with hm | he
        · exact Or.inl (List.mem_cons_of_mem _ hm)
        · exact Or.inr he

theorem set_get_cons_perm {α : Type} :
    ∀ (t : List α) (b : Nat) (hb : b < t.length) (x : α),
      (t.get ⟨b, hb⟩ :: t.set b x).Perm (x :: t) := by
  intro t
  induction t with
  | nil => intro b hb x; exact absurd hb (Nat.not_lt_zero b)
  | cons y tt ih =>
    intro b hb x
    cases b with
    | zero => exact List.Perm.swap x y tt
    | succ b' =>
      have hb' : b' < tt.length := Nat.lt_of_succ_lt_succ hb
      show (tt.get ⟨b', hb'⟩ :: y :: tt.set b' x).Perm (x :: y :: tt)
      exact (List.Perm.swap y (tt.get ⟨b', hb'⟩) (tt.set b' x)).trans
        (((ih b' hb' x).cons y).trans (List.Perm.swap x y tt))

theorem set_set_perm {α : Type} :
    ∀ (l : List α) (a b : Nat) (ha : a < l.length) (hb : b < l.length),
      ((l.set a (l.get ⟨b, hb⟩)).set b (l.get ⟨a, ha⟩)).Perm l := by
  intro l
  induction l with
  | nil => intro a b ha _; exact absurd ha (Nat.not_lt_zero a)
  | cons x t ih =>
    intro a b ha hb
    cases a with
    | zero =>
      cases b with
      | zero => simp
      | succ b' =>
        have hb' : b' < t.length := Nat.lt_of_succ_lt_succ hb
        show (t.get ⟨b', hb'⟩ :: t.set b' x).Perm (x :: t)
        exact set_get_cons_perm t b' hb' x
    | succ a' =>
      have ha' : a' < t.length := Nat.lt_of_succ_lt_succ ha
      cases b with
      | zero =>
        show (t.get ⟨a', ha'⟩ :: t.set a' x).Perm (x :: t)
        exact set_get_cons_perm t a' ha' x
      | succ b' =>
        have hb' : b' < t.length := Nat.lt_of_succ_lt_succ hb
        show (x :: (t.set a' (t.get ⟨b', hb'⟩)).set b' (t.get ⟨a', ha'⟩)).Perm (x :: t)
        exact (ih a' b' ha' hb').cons x

theorem map_range_swapF_perm {α : Type} (f : Nat → α) (num a b : Nat)
    (ha : a < num) (hb : b < num) :
    ((List.range num).map (swapF f a b)).Perm ((List.range num).map f) := by
  have hlen : ((List.range num).map f).length = num := by simp
  have heq : (List.range num).map (swapF f a b)
      = (((List.range num).map f).set a (f b)).set b (f a) := by
    apply List.ext_getElem
    · simp
    · intro i h1 h2
      simp only [List.getElem_map, List.getElem_range, List.getElem_set]
      unfold swapF
      split_ifs <;> first | rfl | exact congrArg f (by omega)
  rw [heq]
  have hga : ((List.range num).map f).get ⟨a, by rw [hlen]; exact ha⟩ = f a := by
    simp [List.get_eq_getElem]
  have hgb : ((List.range num).map f).get ⟨b, by rw [hlen]; exact hb⟩ = f b := by
    simp [List.get_eq_getElem]
  have := set_set_perm ((List.range num).map f) a b
    (by rw [hlen]; exact ha) (by rw [hlen]; exact hb)
  rw [hga, hgb] at this
  exact this

theorem map_range_getD {α : Type} (l : List α) (d : α) :
    (List.range l.length).map (fun k => l.getD k d) = l := by
  apply List.ext_getElem
  · simp
  · intro i h1 h2
    simp only [List.getElem_map, List.getElem_range]
    rw [List.getD_eq_getElem l d h2]

theorem trunkFree_iff (o i : Nat) : trunkFree o i = true ↔ o = 0 ∨ o = i := by
  unfold trunkFree
  simp

/-- Appending a placement that passes the two trunk checks keeps the
prefix feasible. -/
theorem place_feas (env : Env) (prevFor : Nat → Nat → Int) (dl : List Demand)
    (s : SCtx) (depth : Nat) (d : Demand) (c : Nat)
    (hinv : SearchInv env prevFor dl s depth)
    (hd0 : 0 < d.input_id) (hc : c < env.n)
    (hlk : env.have_locks → 0 ≤ env.lock_spine_for d.input_id d.egress_block →
      (c : Int) = env.lock_spine_for d.input_id d.egress_block)
    (h2 : trunkFree (s.tmp_s2 c d.egress_block) d.input_id = true)
    (h1 : trunkFree (s.tmp_s1_owner d.ingress_block c) d.input_id = true) :
    feasiblePairs env (prefixPairs s depth ++ [(d, c)]) := by
  obtain ⟨helem, hpair⟩ := hinv.hfeas
  constructor
  · intro pr hpr
    rcases List.mem_append.mp hpr with h | h
    · exact helem pr h
    · have : pr = (d, c) := by simpa using h
      subst this
      exact ⟨hd0, hc, hlk⟩
  · rw [List.pairwise_append]
    refine ⟨hpair, List.pairwise_singleton _ _, ?_⟩
    intro p hp q hq
    have hq' : q = (d, c) := by simpa using hq
    subst hq'
    constructor
    · intro he hs
      -- p occupies the egress trunk cell (c, d.egress_block)
      have hall : ∀ pr ∈ prefixPairs s depth, pr.2 = c →
          pr.1.egress_block = d.egress_block → pr.1.input_id = p.1.input_id := by
        intro pr hpr hc' he'
        by_cases hpp : pr = p
        · rw [hpp]
        · exact (hpair.forall pairFeasRel_symm hpr hp hpp).1
            (he'.trans (he.symm)) (hc'.trans (hs.symm))
      have hval : listS2 (prefixPairs s depth) c d.egress_block = p.1.input_id := by
        exact foldlS2_match _ _ _ _ _ hall ⟨p, hp, hs, he⟩
      rw [hinv.hm2, hval] at h2
      rcases (trunkFree_iff _ _).mp h2 with h0 | hsame
      · exact absurd h0 (Nat.pos_iff_ne_zero.mp (helem p hp).1)
      · exact hsame
    · intro hb hs
      have hall : ∀ pr ∈ prefixPairs s depth, pr.1.ingress_block = d.ingress_block →
          pr.2 = c → pr.1.input_id = p.1.input_id := by
        intro pr hpr hb' hc'
        by_cases hpp : pr = p
        · rw [hpp]
        · exact (hpair.forall pairFeasRel_symm hpr hp hpp).2
            (hb'.trans (hb.symm)) (hc'.trans (hs.symm))
      have hval : listS1 (prefixPairs s depth) d.ingress_block c = p.1.input_id := by
        exact foldlS1_match _ _ _ _ _ hall ⟨p, hp, hb, hs⟩
      rw [hinv.hm1, hval] at h1
      rcases (trunkFree_iff _ _).mp h1 with h0 | hsame
      · exact absurd h0 (Nat.pos_iff_ne_zero.mp (helem p hp).1)
      · exact hsame

/-- Committing a checked placement at the current depth re-establishes the
search invariant one level deeper. -/
theorem place_inv (env : Env) (prevFor : Nat → Nat → Int) (dl : List Demand)
    (s : SCtx) (depth : Nat) (d : Demand) (c : Nat)
    (hd : s.demands depth = d)
    (hinv : SearchInv env prevFor dl s depth)
    (hlt : depth < s.num_demands)
    (hd0 : 0 < d.input_id) (hc : c < env.n)
    (hlk : env.have_locks → 0 ≤ env.lock_spine_for d.input_id d.egress_block →
      (c : Int) = env.lock_spine_for d.input_id d.egress_block)
    (h2 : trunkFree (s.tmp_s2 c d.egress_block) d.input_id = true)
    (h1 : trunkFree (s.tmp_s1_owner d.ingress_block c) d.input_id = true) :
    SearchInv env prevFor dl
      { s with
        tmp_s2 := set2 s.tmp_s2 c d.egress_block d.input_id,
        tmp_s1_owner := set2 s.tmp_s1_owner d.ingress_block c d.input_id,
        assignment := set1 s.assignment depth c,
        used_spines := set2 s.used_spines d.input_id c true,
        stability_cost := s.stability_cost +
          (if prevFor d.input_id d.egress_block ≥ 0 ∧
              (c : Int) ≠ prevFor d.input_id d.egress_block then 1 else 0) }
      (depth + 1) := by
  set sC : SCtx :=
    { s with
      tmp_s2 := set2 s.tmp_s2 c d.egress_block d.input_id,
      tmp_s1_owner := set2 s.tmp_s1_owner d.ingress_block c d.input_id,
      assignment := set1 s.assignment depth c,
      used_spines := set2 s.used_spines d.input_id c true,
      stability_cost := s.stability_cost +
        (if prevFor d.input_id d.egress_block ≥ 0 ∧
            (c : Int) ≠ prevFor d.input_id d.egress_block then 1 else 0) } with hsC
  have hpfx : prefixPairs sC depth = prefixPairs s depth := by
    apply prefixPairs_congr
    intro k hk
    refine ⟨rfl, ?_⟩
    show set1 s.assignment depth c k = s.assignment k
    unfold set1
    rw [if_neg (Nat.ne_of_lt hk)]
  have hpfx1 : prefixPairs sC (depth + 1) = prefixPairs s depth ++ [(d, c)] := by
    rw [prefixPairs_succ, hpfx]
    have hdd : sC.demands depth = d := hd
    have haa : sC.assignment depth = c := by
      show set1 s.assignment depth c depth = c
      unfold set1
      rw [if_pos rfl]
    rw [hdd, haa]
  refine ⟨hlt, hinv.hperm, ?_, ?_, ?_, ?_⟩
  · rw [hpfx1]
    exact place_feas env prevFor dl s depth d c hinv hd0 hc hlk h2 h1
  · intro x y
    rw [hpfx1, listS2_append]
    show set2 s.tmp_s2 c d.egress_block d.input_id x y = _
    unfold set2
    by_cases hcell : x = c ∧ y = d.egress_block
    · rw [if_pos hcell, if_pos hcell]
    · rw [if_neg hcell, if_neg hcell]
      exact hinv.hm2 x y
  · intro x y
    rw [hpfx1, listS1_append]
    show set2 s.tmp_s1_owner d.ingress_block c d.input_id x y = _
    unfold set2
    by_cases hcell : x = d.ingress_block ∧ y = c
    · rw [if_pos hcell, if_pos hcell]
    · rw [if_neg hcell, if_neg hcell]
      exact hinv.hm1 x y
  · show s.stability_cost + _ = _
    rw [hpfx1, pairCost_append, hinv.hcost]

/-- `completeStep` satisfies the search contract at `depth = num`. -/
theorem completeStep_sound (env : Env) (prevFor : Nat → Nat → Int) (dl : List Demand)
    (s : SCtx) (p : Prog)
    (hinv : SearchInv env prevFor dl s s.num_demands)
    (hgood : ∀ e ∈ s.completions, GoodEntry env prevFor dl e)
    (hbest : s.best_stability_cost = 999999 ∨
      ∃ e ∈ s.completions, e.2 = s.best_stability_cost) :
    SearchOut env prevFor dl s s.num_demands (completeStep s p) := by
  have hpairs : ((List.range s.num_demands).map fun k => (s.demands k, s.assignment k))
      = prefixPairs s s.num_demands := rfl
  have hentry : GoodEntry env prevFor dl
      (prefixPairs s s.num_demands, s.stability_cost) := by
    refine ⟨hinv.hfeas, ?_, hinv.hcost.symm⟩
    have hmap : (prefixPairs s s.num_demands).map Prod.fst
        = (List.range s.num_demands).map s.demands := by
      unfold prefixPairs
      rw [List.map_map]
      rfl
    rw [hmap]
    exact hinv.hperm
  unfold completeStep
  rw [hpairs]
  by_cases himp : s.stability_cost < s.best_stability_cost
  · simp only [himp, if_pos, if_true, ite_true]
    by_cases h0 : s.stability_cost = 0
    · rw [if_pos h0]
      refine ⟨rfl, List.Perm.refl _, ?_, ?_, ?_, ?_, ?_⟩
      · intro e he
        rcases List.mem_cons.mp he with rfl | he'
        · exact hentry
        · exact hgood e he'
      · exact Or.inr ⟨(prefixPairs s s.num_demands, s.stability_cost),
          List.mem_cons_self _ _, rfl⟩
      · exact Nat.le_of_lt himp
      · intro _
        exact h0
      · intro h
        cases h
    · rw [if_neg h0]
      refine ⟨rfl, List.Perm.refl _, ?_, ?_, ?_, ?_, ?_⟩
      · intro e he
        rcases List.mem_cons.mp he with rfl | he'
        · exact hentry
        · exact hgood e he'
      · exact Or.inr ⟨(prefixPairs s s.num_demands, s.stability_cost),
          List.mem_cons_self _ _, rfl⟩
      · exact Nat.le_of_lt himp
      · intro h
        cases h
      · intro _
        exact ⟨fun _ _ => rfl, fun _ _ => rfl, fun _ _ => rfl, rfl,
          fun k _ => ⟨rfl, rfl⟩⟩
  · simp only [himp, if_neg, if_false, ite_false]
    by_cases h0 : s.best_stability_cost = 0
    · rw [if_pos h0]
      refine ⟨rfl, List.Perm.refl _, ?_, ?_, Nat.le_refl _, fun _ => h0, ?_⟩
      · intro e he
        rcases List.mem_cons.mp he with rfl | he'
        · exact hentry
        · exact hgood e he'
      · rcases hbest with hb | ⟨e, he, hee⟩
        · exact Or.inl hb
        · exact Or.inr ⟨e, List.mem_cons_of_mem _ he, hee⟩
      · intro h
        cases h
    · rw [if_neg h0]
      refine ⟨rfl, List.Perm.refl _, ?_, ?_, Nat.le_refl _, ?_, ?_⟩
      · intro e he
        rcases List.mem_cons.mp he with rfl | he'
        · exact hentry
        · exact hgood e he'
      · rcases hbest with hb | ⟨e, he, hee⟩
        · exact Or.inl hb
        · exact Or.inr ⟨e, List.mem_cons_of_mem _ he, hee⟩
      · intro h
        cases h
      · intro _
        exact ⟨fun _ _ => rfl, fun _ _ => rfl, fun _ _ => rfl, rfl,
          fun k _ => ⟨rfl, rfl⟩⟩

/-- The value loop satisfies the search contract, given that the
recursive call does. -/
theorem tryCands_sound (env : Env) (prevFor : Nat → Nat → Int) (dl : List Demand)
    (recur : SCtx → Prog → SCtx × Prog × Bool) (d : Demand) (depth : Nat)
    (hrec : ∀ sc pc,
      SearchInv env prevFor dl sc (depth + 1) →
      (∀ e ∈ sc.completions, GoodEntry env prevFor dl e) →
      (sc.best_stability_cost = 999999 ∨
        ∃ e ∈ sc.completions, e.2 = sc.best_stability_cost) →
      SearchOut env prevFor dl sc (depth + 1) (recur sc pc))
    (hd0 : 0 < d.input_id)
    (hnolock : env.have_locks → env.lock_spine_for d.input_id d.egress_block < 0) :
    ∀ (cands : List Nat) (s : SCtx) (p : Prog),
      (∀ c ∈ cands, c < env.n) →
      s.demands depth = d →
      depth < s.num_demands →
      SearchInv env prevFor dl s depth →
      (∀ e ∈ s.completions, GoodEntry env prevFor dl e) →
      (s.best_stability_cost = 999999 ∨
        ∃ e ∈ s.completions, e.2 = s.best_stability_cost) →
      SearchOut env prevFor dl s depth
        (tryCands recur (prevFor d.input_id d.egress_block) d depth cands s p) := by
  intro cands
  induction cands with
  | nil =>
    intro s p _ _ _ _ hgood hbest
    simp only [tryCands]
    refine ⟨rfl, List.Perm.refl _, hgood, hbest, Nat.le_refl _, ?_, ?_⟩
    · intro h
      cases h
    · intro _
      exact ⟨fun _ _ => rfl, fun _ _ => rfl, fun _ _ => rfl, rfl,
        fun k _ => ⟨rfl, rfl⟩⟩
  | cons c rest ih =>
    intro s p hcands hd hlt hinv hgood hbest
    by_cases h1 : ¬ trunkFree (s.tmp_s2 c d.egress_block) d.input_id = true
    · simp only [tryCands, if_pos h1]
      exact ih s p (fun x hx => hcands x (List.mem_cons_of_mem _ hx)) hd hlt hinv hgood hbest
    · by_cases h2 : ¬ trunkFree (s.tmp_s1_owner d.ingress_block c) d.input_id = true
      · simp only [tryCands, if_neg h1, if_pos h2]
        exact ih s p (fun x hx => hcands x (List.mem_cons_of_mem _ hx)) hd hlt hinv hgood hbest
      · simp only [tryCands, if_neg h1, if_neg h2]
        have hc2 : trunkFree (s.tmp_s2 c d.egress_block) d.input_id = true := not_not.mp h1
        have hc1 : trunkFree (s.tmp_s1_owner d.ingress_block c) d.input_id = true :=
          not_not.mp h2
        have hlkC : env.have_locks →
            0 ≤ env.lock_spine_for d.input_id d.egress_block →
            (c : Int) = env.lock_spine_for d.input_id d.egress_block := by
          intro hl h0
          exact absurd h0 (not_le.mpr (hnolock hl))
        set sC : SCtx :=
          { s with
            tmp_s2 := set2 s.tmp_s2 c d.egress_block d.input_id,
            tmp_s1_owner := set2 s.tmp_s1_owner d.ingress_block c d.input_id,
            assignment := set1 s.assignment depth c,
            used_spines := set2 s.used_spines d.input_id c true,
            stability_cost := s.stability_cost +
              (if prevFor d.input_id d.egress_block ≥ 0 ∧
                  (c : Int) ≠ prevFor d.input_id d.egress_block then 1 else 0) }
          with hsC
        have hinvC : SearchInv env prevFor dl sC (depth + 1) := by
          rw [hsC]
          exact place_inv env prevFor dl s depth d c hd hinv hlt hd0
            (hcands c (List.mem_cons_self _ _)) hlkC hc2 hc1
        have out := hrec sC p hinvC hgood hbest
        rcases e1 : recur sC p with ⟨sR, pR, found⟩
        rw [e1] at out
        obtain ⟨onum, operm, ogoods, obest, oble, ofound0, orest⟩ := out
        by_cases hf : found = true ∧ sR.best_stability_cost = 0
        · rw [if_pos hf]
          refine ⟨onum, operm, ogoods, obest, oble, fun _ => hf.2, ?_⟩
          intro h
          cases h
        · rw [if_neg hf]
          have hfound : found = false := by
            cases found
            · rfl
            · exact absurd ⟨rfl, ofound0 rfl⟩ hf
          obtain ⟨r2, r1, rus, rst, rpre⟩ := orest hfound
          set sU : SCtx :=
            { sR with
              tmp_s2 := set2 sR.tmp_s2 c d.egress_block (s.tmp_s2 c d.egress_block),
              tmp_s1_owner := set2 sR.tmp_s1_owner d.ingress_block c
                (s.tmp_s1_owner d.ingress_block c),
              used_spines := set2 sR.used_spines d.input_id c
                (s.used_spines d.input_id c),
              stability_cost := s.stability_cost } with hsU
          have hU2 : ∀ x y, sU.tmp_s2 x y = s.tmp_s2 x y := by
            intro x y
            show set2 sR.tmp_s2 c d.egress_block (s.tmp_s2 c d.egress_block) x y = _
            unfold set2
            by_cases hcell : x = c ∧ y = d.egress_block
            · rw [if_pos hcell, hcell.1, hcell.2]
            · rw [if_neg hcell, r2 x y]
              show set2 s.tmp_s2 c d.egress_block d.input_id x y = s.tmp_s2 x y
              unfold set2
              rw [if_neg hcell]
          have hU1 : ∀ x y, sU.tmp_s1_owner x y = s.tmp_s1_owner x y := by
            intro x y
            show set2 sR.tmp_s1_owner d.ingress_block c
              (s.tmp_s1_owner d.ingress_block c) x y = _
            unfold set2
            by_cases hcell : x = d.ingress_block ∧ y = c
            · rw [if_pos hcell, hcell.1, hcell.2]
            · rw [if_neg hcell, r1 x y]
              show set2 s.tmp_s1_owner d.ingress_block c d.input_id x y
                = s.tmp_s1_owner x y
              unfold set2
              rw [if_neg hcell]
          have hUus : ∀ x y, sU.used_spines x y = s.used_spines x y := by
            intro x y
            show set2 sR.used_spines d.input_id c (s.used_spines d.input_id c) x y = _
            unfold set2
            by_cases hcell : x = d.input_id ∧ y = c
            · rw [if_pos hcell, hcell.1, hcell.2]
            · rw [if_neg hcell, rus x y]
              show set2 s.used_spines d.input_id c true x y = s.used_spines x y
              unfold set2
              rw [if_neg hcell]
          have hUst : sU.stability_cost = s.stability_cost := rfl
          have hUpre : ∀ k, k < depth →
              sU.demands k = s.demands k ∧ sU.assignment k = s.assignment k := by
            intro k hk
            obtain ⟨hdk, hak⟩ := rpre k (Nat.lt_succ_of_lt hk)
            refine ⟨hdk, ?_⟩
            show sR.assignment k = s.assignment k
            rw [hak]
            show set1 s.assignment depth c k = s.assignment k
            unfold set1
            rw [if_neg (Nat.ne_of_lt hk)]
          have hUd : sU.demands depth = d := by
            obtain ⟨hdk, -⟩ := rpre depth (Nat.lt_succ_self _)
            show sR.demands depth = d
            rw [hdk]
            exact hd
          have hUnum : sU.num_demands = s.num_demands := onum
          have hUperm2 : ((List.range s.num_demands).map sU.demands).Perm
              ((List.range s.num_demands).map s.demands) := operm
          have hpfxU : prefixPairs sU depth = prefixPairs s depth :=
            prefixPairs_congr s sU depth hUpre
          have hinvU : SearchInv env prevFor dl sU depth := by
            refine ⟨?_, ?_, ?_, ?_, ?_, ?_⟩
            · rw [hUnum]
              exact Nat.le_of_lt hlt
            · rw [hUnum]
              exact hUperm2.trans hinv.hperm
            · rw [hpfxU]
              exact hinv.hfeas
            · intro x y
              rw [hpfxU, hU2 x y]
              exact hinv.hm2 x y
            · intro x y
              rw [hpfxU, hU1 x y]
              exact hinv.hm1 x y
            · rw [hpfxU, hUst]
              exact hinv.hcost
          have hfin := ih sU pR (fun x hx => hcands x (List.mem_cons_of_mem _ hx)) hUd
            (by rw [hUnum]; exact hlt) hinvU ogoods obest
          obtain ⟨fnum, fperm, fgoods, fbest, fble, ffound0, frest⟩ := hfin
          refine ⟨fnum.trans hUnum, ?_, fgoods, fbest, Nat.le_trans fble oble,
            ffound0, ?_⟩
          · rw [hUnum] at fperm
            exact fperm.trans hUperm2
          · intro hff
            obtain ⟨f2, f1, fus, fst, fpre⟩ := frest hff
            refine ⟨?_, ?_, ?_, ?_, ?_⟩
            · intro x y
              rw [f2 x y]
              exact hU2 x y
            · intro x y
              rw [f1 x y]
              exact hU1 x y
            · intro x y
              rw [fus x y]
              exact hUus x y
            · rw [fst]
            · intro k hk
              obtain ⟨fd, fa⟩ := fpre k hk
              obtain ⟨ud, ua⟩ := hUpre k hk
              exact ⟨fd.trans ud, fa.trans ua⟩

/-- A search contract relative to a context `t` transfers to a context
`s` whose observable parts `t` agrees with. -/
theorem SearchOut_trans (env : Env) (prevFor : Nat → Nat → Int) (dl : List Demand)
    (s t : SCtx) (depth : Nat) (r : SCtx × Prog × Bool)
    (hout : SearchOut env prevFor dl t depth r)
    (hnum : t.num_demands = s.num_demands)
    (hperm : ((List.range s.num_demands).map t.demands).Perm
      ((List.range s.num_demands).map s.demands))
    (hbesteq : t.best_stability_cost = s.best_stability_cost)
    (h2 : ∀ x y, t.tmp_s2 x y = s.tmp_s2 x y)
    (h1 : ∀ x y, t.tmp_s1_owner x y = s.tmp_s1_owner x y)
    (hus : ∀ x y, t.used_spines x y = s.used_spines x y)
    (hst : t.stability_cost = s.stability_cost)
    (hpre : ∀ k, k < depth → t.demands k = s.demands k ∧ t.assignment k = s.assignment k) :
    SearchOut env prevFor dl s depth r := by
  obtain ⟨onum, operm, ogoods, obest, oble, ofound0, orest⟩ := hout
  rw [hnum] at operm
  refine ⟨onum.trans hnum, operm.trans hperm, ogoods, obest, ?_, ofound0, ?_⟩
  · rw [← hbesteq]
    exact oble
  · intro hff
    obtain ⟨f2, f1, fus, fst, fpre⟩ := orest hff
    refine ⟨?_, ?_, ?_, ?_, ?_⟩
    · intro x y
      rw [f2 x y]
      exact h2 x y
    · intro x y
      rw [f1 x y]
      exact h1 x y
    · intro x y
      rw [fus x y]
      exact hus x y
    · rw [fst]
      exact hst
    · intro k hk
      obtain ⟨fd, fa⟩ := fpre k hk
      obtain ⟨ud, ua⟩ := hpre k hk
      exact ⟨fd.trans ud, fa.trans ua⟩

/-- The trivial contract for a failure return that leaves the context
untouched. -/
theorem SearchOut_triv (env : Env) (prevFor : Nat → Nat → Int) (dl : List Demand)
    (s : SCtx) (depth : Nat) (p : Prog)
    (hgood : ∀ e ∈ s.completions, GoodEntry env prevFor dl e)
    (hbest : s.best_stability_cost = 999999 ∨
      ∃ e ∈ s.completions, e.2 = s.best_stability_cost) :
    SearchOut env prevFor dl s depth (s, p, false) := by
  refine ⟨rfl, List.Perm.refl _, hgood, hbest, Nat.le_refl _, ?_, ?_⟩
  · intro h
    cases h
  · intro _
    exact ⟨fun _ _ => rfl, fun _ _ => rfl, fun _ _ => rfl, rfl, fun k _ => ⟨rfl, rfl⟩⟩

/-- The backtracking search satisfies the search contract: it only logs
feasible, correctly-costed completions of the demand list, and its best
cost is the sentinel or the cost of one of them. -/
theorem backtrack_sound (clock : Nat → Int) (env : Env) (prevFor : Nat → Nat → Int)
    (dl : List Demand)
    (hdl0 : ∀ d ∈ dl, 0 < d.input_id)
    (hlockrange : ∀ i e, 0 ≤ env.lock_spine_for i e →
      env.lock_spine_for i e < (env.n : Int)) :
    ∀ (fuel : Nat) (s : SCtx) (p : Prog) (depth : Nat),
      SearchInv env prevFor dl s depth →
      (∀ e ∈ s.completions, GoodEntry env prevFor dl e) →
      (s.best_stability_cost = 999999 ∨
        ∃ e ∈ s.completions, e.2 = s.best_stability_cost) →
      SearchOut env prevFor dl s depth (backtrack clock env prevFor fuel s p depth) := by
  intro fuel
  induction fuel with
  | zero =>
    intro s p depth hinv hgood hbest
    by_cases hpr : s.stability_cost ≥ s.best_stability_cost
    · simp only [backtrack, if_pos hpr]
      exact SearchOut_triv env prevFor dl s depth _ hgood hbest
    · by_cases hnd : depth = s.num_demands
      · simp only [backtrack, if_neg hpr, if_pos hnd]
        subst hnd
        exact completeStep_sound env prevFor dl s _ hinv hgood hbest
      · simp only [backtrack, if_neg hpr, if_neg hnd]
        exact SearchOut_triv env prevFor dl s depth _ hgood hbest
  | succ fuel ihf =>
    intro s p depth hinv hgood hbest
    by_cases hpr : s.stability_cost ≥ s.best_stability_cost
    · simp only [backtrack, if_pos hpr]
      exact SearchOut_triv env prevFor dl s depth _ hgood hbest
    · by_cases hnd : depth = s.num_demands
      · simp only [backtrack, if_neg hpr, if_pos hnd]
        subst hnd
        exact completeStep_sound env prevFor dl s _ hinv hgood hbest
      · have hlt : depth < s.num_demands :=
          Nat.lt_of_le_of_ne hinv.hdepth hnd
        rcases hm : mrvScan (fun k => domain_size env s (s.demands k))
            (List.range' depth (s.num_demands - depth)) none 999 with _ | obi
        · simp only [backtrack, if_neg hpr, if_neg hnd, hm]
          exact SearchOut_triv env prevFor dl s depth _ hgood hbest
        · rcases obi with _ | besti
          · simp only [backtrack, if_neg hpr, if_neg hnd, hm]
            exact SearchOut_triv env prevFor dl s depth _ hgood hbest
          · simp only [backtrack, if_neg hpr, if_neg hnd, hm]
            have hbi : depth ≤ besti ∧ besti < s.num_demands := by
              rcases mrvScan_mem _ _ _ _ _ hm with hmem | hne
              · rcases List.mem_range'.mp hmem with ⟨i, hi, hieq⟩
                omega
              · cases hne
            set sA : SCtx :=
              if besti ≠ depth then
                { s with demands := swapF s.demands depth besti,
                         assignment := swapF s.assignment depth besti }
              else s with hsA
            have hAnum : sA.num_demands = s.num_demands := by
              rw [hsA]
              by_cases hbd : besti ≠ depth
              · rw [if_pos hbd]
              · rw [if_neg hbd]
            have hAperm : ((List.range s.num_demands).map sA.demands).Perm
                ((List.range s.num_demands).map s.demands) := by
              rw [hsA]
              by_cases hbd : besti ≠ depth
              · rw [if_pos hbd]
                exact map_range_swapF_perm s.demands s.num_demands depth besti hlt hbi.2
              · rw [if_neg hbd]
            have hA2 : ∀ x y, sA.tmp_s2 x y = s.tmp_s2 x y := by
              intro x y
              rw [hsA]
              by_cases hbd : besti ≠ depth
              · rw [if_pos hbd]
              · rw [if_neg hbd]
            have hA1 : ∀ x y, sA.tmp_s1_owner x y = s.tmp_s1_owner x y := by
              intro x y
              rw [hsA]
              by_cases hbd : besti ≠ depth
              · rw [if_pos hbd]
              · rw [if_neg hbd]
            have hAus : ∀ x y, sA.used_spines x y = s.used_spines x y := by
              intro x y
              rw [hsA]
              by_cases hbd : besti ≠ depth
              · rw [if_pos hbd]
              · rw [if_neg hbd]
            have hAst : sA.stability_cost = s.stability_cost := by
              rw [hsA]
              by_cases hbd : besti ≠ depth
              · rw [if_pos hbd]
              · rw [if_neg hbd]
            have hAbest : sA.best_stability_cost = s.best_stability_cost := by
              rw [hsA]
              by_cases hbd : besti ≠ depth
              · rw [if_pos hbd]
              · rw [if_neg hbd]
            have hAcompl : sA.completions = s.completions := by
              rw [hsA]
              by_cases hbd : besti ≠ depth
              · rw [if_pos hbd]
              · rw [if_neg hbd]
            have hApre : ∀ k, k < depth →
                sA.demands k = s.demands k ∧ sA.assignment k = s.assignment k := by
              intro k hk
              rw [hsA]
              by_cases hbd : besti ≠ depth
              · rw [if_pos hbd]
                constructor
                · show swapF s.demands depth besti k = s.demands k
                  unfold swapF
                  rw [if_neg (Nat.ne_of_lt hk), if_neg (by omega : ¬ k = besti)]
                · show swapF s.assignment depth besti k = s.assignment k
                  unfold swapF
                  rw [if_neg (Nat.ne_of_lt hk), if_neg (by omega : ¬ k = besti)]
              · rw [if_neg hbd]
                exact ⟨rfl, rfl⟩
            have hpfxA : prefixPairs sA depth = prefixPairs s depth :=
              prefixPairs_congr s sA depth hApre
            have hinvA : SearchInv env prevFor dl sA depth := by
              refine ⟨?_, ?_, ?_, ?_, ?_, ?_⟩
              · rw [hAnum]
                exact hinv.hdepth
              · rw [hAnum]
                exact hAperm.trans hinv.hperm
              · rw [hpfxA]
                exact hinv.hfeas
              · intro x y
                rw [hpfxA, hA2 x y]
                exact hinv.hm2 x y
              · intro x y
                rw [hpfxA, hA1 x y]
                exact hinv.hm1 x y
              · rw [hpfxA, hAst]
                exact hinv.hcost
            have hltA : depth < sA.num_demands := by
              rw [hAnum]
              exact hlt
            have hgoodA : ∀ e ∈ sA.completions, GoodEntry env prevFor dl e := by
              intro e he
              rw [hAcompl] at he
              exact hgood e he
            have hbestA : sA.best_stability_cost = 999999 ∨
                ∃ e ∈ sA.completions, e.2 = sA.best_stability_cost := by
              rw [hAbest, hAcompl]
              exact hbest
            have hdmem : sA.demands depth ∈ dl := by
              have hmem : sA.demands depth ∈ (List.range sA.num_demands).map sA.demands :=
                List.mem_map.mpr ⟨depth, List.mem_range.mpr hltA, rfl⟩
              exact hinvA.hperm.mem_iff.mp hmem
            have hd0A : 0 < (sA.demands depth).input_id := hdl0 _ hdmem
            by_cases hlk : (if env.have_locks then
                env.lock_spine_for (sA.demands depth).input_id
                  (sA.demands depth).egress_block else -1) ≥ 0
            · rw [if_pos hlk]
              have hhl : env.have_locks = true := by
                by_contra hh
                rw [if_neg (by simpa using hh)] at hlk
                omega
              rw [if_pos hhl] at hlk ⊢
              have hcA : (env.lock_spine_for (sA.demands depth).input_id
                  (sA.demands depth).egress_block).toNat < env.n := by
                have := hlockrange (sA.demands depth).input_id
                  (sA.demands depth).egress_block hlk
                omega
              have hlkCA : env.have_locks →
                  0 ≤ env.lock_spine_for (sA.demands depth).input_id
                    (sA.demands depth).egress_block →
                  (((env.lock_spine_for (sA.demands depth).input_id
                    (sA.demands depth).egress_block).toNat : Nat) : Int) =
                    env.lock_spine_for (sA.demands depth).input_id
                      (sA.demands depth).egress_block :=
                fun _ _ => Int.toNat_of_nonneg hlk
              by_cases hch2 : ¬ trunkFree (sA.tmp_s2
                  (env.lock_spine_for (sA.demands depth).input_id
                    (sA.demands depth).egress_block).toNat
                  (sA.demands depth).egress_block) (sA.demands depth).input_id = true
              · rw [if_pos hch2]
                exact SearchOut_trans env prevFor dl s sA depth _
                  (SearchOut_triv env prevFor dl sA depth _ hgoodA hbestA)
                  hAnum hAperm hAbest hA2 hA1 hAus hAst hApre
              · by_cases hch1 : ¬ trunkFree (sA.tmp_s1_owner
                    (sA.demands depth).ingress_block
                    (env.lock_spine_for (sA.demands depth).input_id
                      (sA.demands depth).egress_block).toNat)
                    (sA.demands depth).input_id = true
                · rw [if_neg hch2, if_pos hch1]
                  exact SearchOut_trans env prevFor dl s sA depth _
                    (SearchOut_triv env prevFor dl sA depth _ hgoodA hbestA)
                    hAnum hAperm hAbest hA2 hA1 hAus hAst hApre
                · rw [if_neg hch2, if_neg hch1]
                  have hc2t : trunkFree (sA.tmp_s2
                      (env.lock_spine_for (sA.demands depth).input_id
                        (sA.demands depth).egress_block).toNat
                      (sA.demands depth).egress_block)
                      (sA.demands depth).input_id = true := not_not.mp hch2
                  have hc1t : trunkFree (sA.tmp_s1_owner
                      (sA.demands depth).ingress_block
                      (env.lock_spine_for (sA.demands depth).input_id
                        (sA.demands depth).egress_block).toNat)
                      (sA.demands depth).input_id = true := not_not.mp hch1
                  set c : Nat := (env.lock_spine_for (sA.demands depth).input_id
                    (sA.demands depth).egress_block).toNat with hc
                  set sC : SCtx :=
                    { sA with
                      tmp_s2 := set2 sA.tmp_s2 c (sA.demands depth).egress_block
                        (sA.demands depth).input_id,
                      tmp_s1_owner := set2 sA.tmp_s1_owner
                        (sA.demands depth).ingress_block c (sA.demands depth).input_id,
                      assignment := set1 sA.assignment depth c,
                      used_spines := set2 sA.used_spines (sA.demands depth).input_id c true,
                      stability_cost := sA.stability_cost +
                        (if prevFor (sA.demands depth).input_id
                              (sA.demands depth).egress_block ≥ 0 ∧
                            (c : Int) ≠ prevFor (sA.demands depth).input_id
                              (sA.demands depth).egress_block then 1 else 0) }
                    with hsC
                  have hinvC : SearchInv env prevFor dl sC (depth + 1) := by
                    rw [hsC]
                    exact place_inv env prevFor dl sA depth (sA.demands depth) c rfl
                      hinvA hltA hd0A hcA hlkCA hc2t hc1t
                  have out := ihf sC
                    (progressStep clock p depth s.num_demands s.best_stability_cost)
                    (depth + 1) hinvC hgoodA hbestA
                  rcases e1 : backtrack clock env prevFor fuel sC
                    (progressStep clock p depth s.num_demands s.best_stability_cost)
                    (depth + 1) with ⟨sR, pR, found⟩
                  rw [e1] at out
                  obtain ⟨onum, operm, ogoods, obest, oble, ofound0, orest⟩ := out
                  have operm' : ((List.range s.num_demands).map sR.demands).Perm
                      ((List.range s.num_demands).map sA.demands) := by
                    rw [← hAnum]
                    exact operm
                  by_cases hf : found = true ∧ sR.best_stability_cost = 0
                  · rw [if_pos hf]
                    refine ⟨onum.trans hAnum, operm'.trans hAperm, ogoods, obest, ?_,
                      fun _ => hf.2, ?_⟩
                    · rw [← hAbest]
                      exact oble
                    · intro h
                      cases h
                  · rw [if_neg hf]
                    have hfound : found = false := by
                      cases found
                      · rfl
                      · exact absurd ⟨rfl, ofound0 rfl⟩ hf
                    obtain ⟨r2, r1, rus, rst, rpre⟩ := orest hfound
                    refine ⟨onum.trans hAnum, operm'.trans hAperm, ogoods, obest, ?_,
                      ?_, ?_⟩
                    · rw [← hAbest]
                      exact oble
                    · intro h
                      cases h
                    · intro _
                      refine ⟨?_, ?_, ?_, ?_, ?_⟩
                      · intro x y
                        show set2 sR.tmp_s2 c (sA.demands depth).egress_block
                          (sA.tmp_s2 c (sA.demands depth).egress_block) x y = _
                        unfold set2
                        by_cases hcell : x = c ∧ y = (sA.demands depth).egress_block
                        · rw [if_pos hcell, hcell.1, hcell.2]
                          exact hA2 c (sA.demands depth).egress_block
                        · rw [if_neg hcell, r2 x y]
                          show set2 sA.tmp_s2 c (sA.demands depth).egress_block
                            (sA.demands depth).input_id x y = s.tmp_s2 x y
                          unfold set2
                          rw [if_neg hcell]
                          exact hA2 x y
                      · intro x y
                        show set2 sR.tmp_s1_owner (sA.demands depth).ingress_block c
                          (sA.tmp_s1_owner (sA.demands depth).ingress_block c) x y = _
                        unfold set2
                        by_cases hcell : x = (sA.demands depth).ingress_block ∧ y = c
                        · rw [if_pos hcell, hcell.1, hcell.2]
                          exact hA1 (sA.demands depth).ingress_block c
                        · rw [if_neg hcell, r1 x y]
                          show set2 sA.tmp_s1_owner (sA.demands depth).ingress_block c
                            (sA.demands depth).input_id x y = s.tmp_s1_owner x y
                          unfold set2
                          rw [if_neg hcell]
                          exact hA1 x y
                      · intro x y
                        show set2 sR.used_spines (sA.demands depth).input_id c
                          (sA.used_spines (sA.demands depth).input_id c) x y = _
                        unfold set2
                        by_cases hcell : x = (sA.demands depth).input_id ∧ y = c
                        · rw [if_pos hcell, hcell.1, hcell.2]
                          exact hAus (sA.demands depth).input_id c
                        · rw [if_neg hcell, rus x y]
                          show set2 sA.used_spines (sA.demands depth).input_id c true x y
                            = s.used_spines x y
                          unfold set2
                          rw [if_neg hcell]
                          exact hAus x y
                      · exact hAst
                      · intro k hk
                        obtain ⟨rd, ra⟩ := rpre k (Nat.lt_succ_of_lt hk)
                        obtain ⟨ad, aa⟩ := hApre k hk
                        constructor
                        · exact rd.trans ad
                        · show sR.assignment k = s.assignment k
                          rw [ra]
                          show set1 sA.assignment depth c k = s.assignment k
                          unfold set1
                          rw [if_neg (Nat.ne_of_lt hk)]
                          exact aa
            · rw [if_neg hlk]
              have hnolockA : env.have_locks →
                  env.lock_spine_for (sA.demands depth).input_id
                    (sA.demands depth).egress_block < 0 := by
                intro hl
                rw [if_pos hl] at hlk
                omega
              exact SearchOut_trans env prevFor dl s sA depth _
                (tryCands_sound env prevFor dl
                  (fun sc pc => backtrack clock env prevFor fuel sc pc (depth + 1))
                  (sA.demands depth) depth
                  (fun sc pc hi hg hb => ihf sc pc (depth + 1) hi hg hb)
                  hd0A hnolockA
                  (candList env.n
                    (prevFor (sA.demands depth).input_id (sA.demands depth).egress_block)
                    (fun sp => sA.used_spines (sA.demands depth).input_id sp))
                  sA _ (candList_lt _ _ _) rfl hltA hinvA hgoodA hbestA)
                hAnum hAperm hAbest hA2 hA1 hAus hAst hApre

/-- The entry context of the search satisfies the invariant at depth 0. -/
theorem initial_inv (env : Env) (prevFor : Nat → Nat → Int) (dl : List Demand) :
    SearchInv env prevFor dl (initialSCtx dl) 0 := by
  refine ⟨Nat.zero_le _, ?_, ?_, fun x y => rfl, fun x y => rfl, rfl⟩
  · show ((List.range dl.length).map fun k => dl.getD k ⟨0, 0, 0⟩).Perm dl
    rw [map_range_getD]
  · exact ⟨fun pr hpr => absurd hpr (List.not_mem_nil pr), List.Pairwise.nil⟩

/-- C10 (sentinel semantics of the search): the solver accepts a complete
assignment only when its stability cost is strictly below the fixed
sentinel 999999 (`best_stability_cost` starts at 999999 and the entry
prune rejects any branch whose running cost reaches it).  Consequently,
for a declared state whose every feasible complete assignment of the
demand list costs at least 999999, `solve_and_build_solution` returns no
solution — reporting failure exactly as if no feasible assignment
existed. -/
theorem C10_sentinel_hides_feasible_solutions
    (clock : Nat → Int) (env : Env) (st : St) (dl : List Demand)
    (hbd : build_demands env.n st.desired_owner = some dl)
    (hlockrange : ∀ i e, 0 ≤ env.lock_spine_for i e →
      env.lock_spine_for i e < (env.n : Int))
    (hall : ∀ pairs : List (Demand × Nat),
      feasiblePairs env pairs → (pairs.map Prod.fst).Perm dl →
      999999 ≤ pairCost (prev_spine_for env st.desired_owner) pairs) :
    (solve_and_build_solution clock env st).2 = none := by
  have hdl : dl = demandSpec env.n st.desired_owner := by
    have h := build_demands_eq env.n st.desired_owner
    rw [hbd] at h
    exact Option.some.inj h
  have hdl0 : ∀ d ∈ dl, 0 < d.input_id := by
    rw [hdl]
    intro d hd
    have hm := (mem_demandSpec env.n st.desired_owner d).mp hd
    omega
  unfold solve_and_build_solution
  rw [hbd]
  rcases hv : validate_locks_against_demands env st.desired_owner st.conflicts
    with ⟨cf', lockOk⟩
  cases lockOk
  · simp
  · by_cases hlen : dl.length = 0
    · exfalso
      have hdlnil : dl = [] := List.length_eq_zero.mp hlen
      have hz := hall [] ⟨fun pr hpr => absurd hpr (List.not_mem_nil pr),
        List.Pairwise.nil⟩ (by rw [hdlnil]; exact List.Perm.refl _)
      simp [pairCost] at hz
    · by_cases hcap : quick_capacity_check env.n st.desired_owner = true
      · simp only [hlen, hcap, if_true, ite_false, ite_true, Bool.not_true,
          not_false_eq_true, if_neg, if_false]
        rcases hbt : backtrack clock env (prev_spine_for env st.desired_owner)
            dl.length (initialSCtx dl) st.prog 0 with ⟨sf, pf, b⟩
        have hout := backtrack_sound clock env (prev_spine_for env st.desired_owner)
          dl hdl0 hlockrange dl.length (initialSCtx dl) st.prog 0
          (initial_inv env (prev_spine_for env st.desired_owner) dl)
          (fun e he => absurd he (List.not_mem_nil e))
          (Or.inl rfl)
        rw [hbt] at hout
        obtain ⟨-, -, ogoods, obest, oble, -, -⟩ := hout
        have hbest999 : sf.best_stability_cost = 999999 := by
          rcases obest with h | ⟨e, he, hee⟩
          · exact h
          · obtain ⟨hfeas, hperm, hcost⟩ := ogoods e he
            have hge := hall e.1 hfeas hperm
            have hceq : pairCost (prev_spine_for env st.desired_owner) e.1
                = sf.best_stability_cost := hcost.trans hee
            have hge2 : (999999 : Nat) ≤ sf.best_stability_cost := by
              rw [← hceq]
              exact hge
            have hle : sf.best_stability_cost ≤ 999999 := by
              have h9 : (initialSCtx dl).best_stability_cost = 999999 := rfl
              rw [h9] at oble
              exact oble
            omega
        rw [if_pos hbest999]
        simp
      · simp only [Bool.not_eq_true] at hcap
        simp [hlen, hcap]

/-- `load_locks` only ever stores spines it has range-checked. -/
theorem load_locks_step_range (n : Nat) :
    ∀ (l : List (Int × Int × Int)) (ls : LockState),
      (∀ i e, 0 ≤ ls.lock_spine_for i e → ls.lock_spine_for i e < (n : Int)) →
      ∀ i e,
        0 ≤ (l.foldl
          (fun ls ent =>
            if ¬ ((1 : Int) ≤ ent.1 ∧ ent.1 ≤ ((n * n : Nat) : Int) ∧ 0 ≤ ent.2.1 ∧
                  ent.2.1 < (n : Int) ∧ 0 ≤ ent.2.2 ∧ ent.2.2 < (n : Int)) then
              { ls with conflicts := ls.conflicts ++ [⟨ent.1, ent.2.1, ent.2.2, "RANGE"⟩] }
            else
              let existing := ls.lock_spine_for ent.1.toNat ent.2.1.toNat
              if existing ≥ 0 ∧ existing ≠ ent.2.2 then
                { ls with conflicts := ls.conflicts ++ [⟨ent.1, ent.2.1, ent.2.2, "CONFLICT"⟩] }
              else
                { ls with lock_spine_for :=
                            set2 ls.lock_spine_for ent.1.toNat ent.2.1.toNat ent.2.2,
                          have_locks := true }) ls).lock_spine_for i e →
        (l.foldl
          (fun ls ent =>
            if ¬ ((1 : Int) ≤ ent.1 ∧ ent.1 ≤ ((n * n : Nat) : Int) ∧ 0 ≤ ent.2.1 ∧
                  ent.2.1 < (n : Int) ∧ 0 ≤ ent.2.2 ∧ ent.2.2 < (n : Int)) then
              { ls with conflicts := ls.conflicts ++ [⟨ent.1, ent.2.1, ent.2.2, "RANGE"⟩] }
            else
              let existing := ls.lock_spine_for ent.1.toNat ent.2.1.toNat
              if existing ≥ 0 ∧ existing ≠ ent.2.2 then
                { ls with conflicts := ls.conflicts ++ [⟨ent.1, ent.2.1, ent.2.2, "CONFLICT"⟩] }
              else
                { ls with lock_spine_for :=
                            set2 ls.lock_spine_for ent.1.toNat ent.2.1.toNat ent.2.2,
                          have_locks := true }) ls).lock_spine_for i e < (n : Int) := by
  intro l
  induction l with
  | nil => intro ls hls; exact hls
  | cons ent rest ih =>
    intro ls hls
    rw [List.foldl_cons]
    apply ih
    intro i e
    by_cases hr : ¬ ((1 : Int) ≤ ent.1 ∧ ent.1 ≤ ((n * n : Nat) : Int) ∧ 0 ≤ ent.2.1 ∧
        ent.2.1 < (n : Int) ∧ 0 ≤ ent.2.2 ∧ ent.2.2 < (n : Int))
    · simp only [if_pos hr]
      exact hls i e
    · simp only [if_neg hr]
      by_cases hc : ls.lock_spine_for ent.1.toNat ent.2.1.toNat ≥ 0 ∧
          ls.lock_spine_for ent.1.toNat ent.2.1.toNat ≠ ent.2.2
      · simp only [if_pos hc]
        exact hls i e
      · simp only [if_neg hc]
        show 0 ≤ set2 ls.lock_spine_for ent.1.toNat ent.2.1.toNat ent.2.2 i e → _
        unfold set2
        by_cases hcell : i = ent.1.toNat ∧ e = ent.2.1.toNat
        · rw [if_pos hcell]
          intro _
          exact (not_not.mp hr).2.2.2.2.2
        · rw [if_neg hcell]
          exact hls i e

/-- The lock table a startup loads holds only in-range spines. -/
theorem load_locks_spine_range (n : Nat) (entries : List (Int × Int × Int)) :
    ∀ i e, 0 ≤ (load_locks n entries).lock_spine_for i e →
      (load_locks n entries).lock_spine_for i e < (n : Int) :=
  load_locks_step_range n entries ⟨fun _ _ => -1, false, []⟩
    (fun _ _ h0 => absurd h0 (by norm_num))

/-- Setup of the all-infeasible instance: `N = 2` with locks `(1,0) → 0`
and `(1,1) → 1`, pinning input 1 onto both spines of ingress block 0. -/
def suNoFit : Setup :=
  { n := 2, prev := fun _ => -1, havePrev := false, strict := false,
    lockEntries := [((1 : Int), (0 : Int), (0 : Int)), ((1 : Int), (1 : Int), (1 : Int))] }

/-- Declared state of the all-infeasible instance: input 1 owns ports 1
and 3, input 2 owns port 2 — so input 2 finds every ingress trunk of its
block taken, whatever spine it tries. -/
def stNoFit : St :=
  { suNoFit.st0 with desired_owner := fun p => [0, 1, 2, 1].getD p 0 }

/-- The demand list of the all-infeasible instance. -/
def dlNoFit : List Demand := [⟨1, 0, 0⟩, ⟨1, 0, 1⟩, ⟨2, 0, 0⟩]

/-- Witness for C10 at the all-infeasible instance: its demand list is
`dlNoFit`, every feasible complete assignment vacuously costs at least
999999 (there are none: the locks occupy both ingress trunks of block 0,
leaving no spine for input 2), and the solve indeed returns no
solution. -/
theorem C10_witness :
    build_demands suNoFit.env.n stNoFit.desired_owner = some dlNoFit ∧
    (∀ i e, 0 ≤ suNoFit.env.lock_spine_for i e →
      suNoFit.env.lock_spine_for i e < (suNoFit.env.n : Int)) ∧
    (∀ pairs : List (Demand × Nat),
      feasiblePairs suNoFit.env pairs → (pairs.map Prod.fst).Perm dlNoFit →
      999999 ≤ pairCost (prev_spine_for suNoFit.env stNoFit.desired_owner) pairs) ∧
    (solve_and_build_solution zeroClock suNoFit.env stNoFit).2 = none := by
  have hbd : build_demands suNoFit.env.n stNoFit.desired_owner = some dlNoFit := by
    decide
  have hrange : ∀ i e, 0 ≤ suNoFit.env.lock_spine_for i e →
      suNoFit.env.lock_spine_for i e < (suNoFit.env.n : Int) :=
    load_locks_spine_range 2 suNoFit.lockEntries
  have hall : ∀ pairs : List (Demand × Nat),
      feasiblePairs suNoFit.env pairs → (pairs.map Prod.fst).Perm dlNoFit →
      999999 ≤ pairCost (prev_spine_for suNoFit.env stNoFit.desired_owner) pairs := by
    intro pairs hfeas hperm
    exfalso
    obtain ⟨helem, hpair⟩ := hfeas
    have hmA : (⟨1, 0, 0⟩ : Demand) ∈ pairs.map Prod.fst :=
      hperm.mem_iff.mpr (by decide)
    have hmB : (⟨1, 0, 1⟩ : Demand) ∈ pairs.map Prod.fst :=
      hperm.mem_iff.mpr (by decide)
    have hmC : (⟨2, 0, 0⟩ : Demand) ∈ pairs.map Prod.fst :=
      hperm.mem_iff.mpr (by decide)
    obtain ⟨prA, hmemA, hfA⟩ := List.mem_map.mp hmA
    obtain ⟨prB, hmemB, hfB⟩ := List.mem_map.mp hmB
    obtain ⟨prC, hmemC, hfC⟩ := List.mem_map.mp hmC
    have hA2 : (prA.2 : Int) = 0 := by
      have h := (helem prA hmemA).2.2
      rw [hfA] at h
      exact (h (by decide) (by decide)).trans (by decide)
    have hB2 : (prB.2 : Int) = 1 := by
      have h := (helem prB hmemB).2.2
      rw [hfB] at h
      exact (h (by decide) (by decide)).trans (by decide)
    have hC2 : prC.2 < 2 := (helem prC hmemC).2.1
    have hsym := hpair.forall pairFeasRel_symm
    have hneCA : prC ≠ prA := by
      intro h
      exact absurd (hfC.symm.trans ((congrArg Prod.fst h).trans hfA)) (by decide)
    have hneCB : prC ≠ prB := by
      intro h
      exact absurd (hfC.symm.trans ((congrArg Prod.fst h).trans hfB)) (by decide)
    rcases (by omega : prC.2 = 0 ∨ prC.2 = 1) with h0 | h1
    · have hrel := hsym hmemC hmemA hneCA
      have hin := hrel.2 (by rw [hfC, hfA]) (by omega)
      rw [hfC, hfA] at hin
      exact absurd hin (by decide)
    · have hrel := hsym hmemC hmemB hneCB
      have hin := hrel.2 (by rw [hfC, hfB]) (by omega)
      rw [hfC, hfB] at hin
      exact absurd hin (by decide)
  exact ⟨hbd, hrange, hall, C10_sentinel_hides_feasible_solutions zeroClock suNoFit.env
    stNoFit dlNoFit hbd hrange hall⟩

/-- Environment of the locked-cell clobber instance: `N = 3`, previous
state present, a single lock `(1,1) → 0`. -/
def envC4 : Env :=
  { n := 3,
    prev_s3_port_spine := fun p =>
      [(-1 : Int), 0, -1, 1, 0, 2, 2, 2, 2, 1].getD p (-1),
    have_previous_state := true, strict_stability := false,
    have_locks := (load_locks 3 [((1 : Int), (1 : Int), (0 : Int))]).have_locks,
    lock_spine_for := (load_locks 3 [((1 : Int), (1 : Int), (0 : Int))]).lock_spine_for }

/-- Declared state of the locked-cell clobber instance: ports `2..9`
owned by inputs `6, 3, 8, 4, 1, 9, 7, 7`; in particular port 6 (egress
block 1) is owned by input 1, whose lock pins demand `(1,1)` to spine 0. -/
def stC4 : St :=
  { desired_owner := fun p => [0, 0, 6, 3, 8, 4, 1, 9, 7, 7].getD p 0,
    s1_to_s2 := fun _ _ => 0, s2_to_s3 := fun _ _ => 0,
    s3_port_owner := fun _ => 0, s3_port_spine := fun _ => -1,
    conflicts := [], last_stability_cost := 0, prog := ⟨0, 0, []⟩ }

/-- C4: lock fidelity fails in the committed fabric.  At this input the
solve succeeds and the lock `(1,1) → 0` is honoured by the locked
demand's own ports (`s3_port_owner 6 = 1`, `s3_port_spine 6 = 0`), but
the committed egress trunk cell `s2_to_s3[0][1]` does not carry input 1:
the post-record MRV permutation of `demands[]` pairs another demand of
egress block 1 with the locked spine during the rebuild, overwriting the
locked cell — the claim's `s2_to_s3[s][e] = i` is violated. -/
theorem C4_locked_cell_clobbered_at_failing_input :
    (solve_and_build_solution zeroClock envC4 stC4).2.isSome = true ∧
    envC4.lock_spine_for 1 1 = 0 ∧
    stC4.desired_owner 6 = 1 ∧ get_block envC4.n 6 = 1 ∧
    (repack_fabric_and_commit zeroClock envC4 stC4).1.s3_port_owner 6 = 1 ∧
    (repack_fabric_and_commit zeroClock envC4 stC4).1.s3_port_spine 6 = 0 ∧
    ¬ (repack_fabric_and_commit zeroClock envC4 stC4).1.s2_to_s3 0 1 = 1 := by
  decide

end Clos
